import Mathlib

/-!
Verification of the anime-mux core (episode-number inference, track identity,
cross-episode reconciliation, gap resolution and merge-plan construction)
against a shallow Lean embedding of the Python sources under
`src/anime_mux/`.  File paths are modelled by their directory component plus
filename; strings are ASCII-faithful (Python `re.IGNORECASE`, `\d` and
`str.lower` are modelled with `Char.toLower` / `Char.isDigit`, which agree
with Python on ASCII input).
-/

namespace AnimeMux

/-- A file path: directory components plus the final component
(`pathlib.Path.name`).  Only `.name` is ever inspected by the matcher; the
planner additionally joins paths with `/`. -/
structure MPath where
  dir : List String
  name : String
deriving DecidableEq, Repr

/-- Joining a directory path with a filename (`output_dir / name`). -/
def MPath.join (d : MPath) (n : String) : MPath :=
  ⟨d.dir ++ [d.name], n⟩

/-- models.TrackType -/
inductive TrackType where
  | VIDEO
  | audio
  | SUBTITLE
  | ATTACHMENT
deriving DecidableEq, Repr

/-- Python `TrackType.name` as used in f-strings. -/
def TrackType.pyName : TrackType → String
  | .VIDEO => "VIDEO"
  | .audio => "AUDIO"
  | .SUBTITLE => "SUBTITLE"
  | .ATTACHMENT => "ATTACHMENT"

instance : BEq TrackType := ⟨fun a b => decide (a = b)⟩

/-- models.TrackSource -/
inductive TrackSource where
  | EMBEDDED
  | EXTERNAL
deriving DecidableEq, Repr

/-- models.Track (dataclass).  `Optional[int]`/`Optional[str]` become
`Option`; Python `int` for channel counts and video metadata is non-negative
in practice and modelled by `Nat`. -/
structure Track where
  index : Nat
  track_type : TrackType
  codec : String
  language : String
  title : Option String
  source : TrackSource
  source_file : MPath
  channels : Option Nat := none
  is_forced : Bool := false
  is_default : Bool := false
  width : Option Nat := none
  height : Option Nat := none
  bitrate : Option Nat := none
deriving DecidableEq, Repr

/-- Python `str(bool)` as produced by an f-string. -/
def pyBool : Bool → String
  | true => "True"
  | false => "False"

/-- Track.identity_key: `self.title or ''` and `self.channels or 0` treat
both `None` and the falsy values `""`/`0` as the placeholder, which is
exactly `Option.getD`. -/
def Track.identity_key (t : Track) : String :=
  match t.track_type with
  | .audio =>
      "audio|" ++ t.language ++ "|" ++ t.title.getD "" ++ "|" ++
        toString (t.channels.getD 0)
  | .SUBTITLE =>
      "sub|" ++ t.language ++ "|" ++ t.title.getD "" ++ "|" ++
        pyBool t.is_forced
  | tt => tt.pyName ++ "|" ++ t.codec

/-- models.Episode.  The dict fields keep Python dict insertion order as
association lists. -/
structure Episode where
  number : Nat
  video_file : MPath
  embedded_tracks : List Track := []
  external_audio : List (String × Track) := []
  external_subs : List (String × Track) := []
deriving DecidableEq, Repr

/-- models.ExternalSource -/
structure ExternalSource where
  name : String
  source_type : TrackType
  base_path : MPath
  files : List (Nat × MPath) := []
deriving DecidableEq, Repr

/-- models.MergeJob (the `video_encoding` field is CLI-level configuration
that the planner claims never touch and is omitted). -/
structure MergeJob where
  episode : Episode
  output_path : MPath
  video_tracks : List Track := []
  audio_tracks : List Track := []
  subtitle_tracks : List Track := []
  preserve_attachments : Bool := true
deriving DecidableEq, Repr

/-- models.MergePlan -/
structure MergePlan where
  jobs : List MergeJob
  output_directory : MPath
  skipped_episodes : List Nat := []
deriving DecidableEq, Repr

/-- models.AnalysisResult -/
structure AnalysisResult where
  episodes : List (Nat × Episode)
  common_embedded_audio : List String
  common_embedded_subs : List String
  external_audio_sources : List (String × ExternalSource)
  external_subtitle_sources : List (String × ExternalSource)
  missing_tracks : List (Nat × Finset String)
  unmatched_external_files : List MPath

/-- selector.TrackSelection -/
structure TrackSelection where
  identifier : String
  is_embedded : Bool
  display_name : String
deriving DecidableEq, Repr

/-- selector.SelectionResult -/
structure SelectionResult where
  audio_selections : List TrackSelection
  subtitle_selections : List TrackSelection
  audio_substitutions : List (Nat × String)
  subtitle_substitutions : List (Nat × String)
  skipped_episodes : List Nat
deriving DecidableEq, Repr

/-! ### matcher.py -/

/-- Case-insensitive equality of character lists, the meaning of matching an
escaped literal under `re.IGNORECASE` (ASCII semantics; `Char.toLower` only
maps A-Z to a-z, as CPython does on ASCII text). -/
def lowerEq (a b : List Char) : Prop :=
  a.map Char.toLower = b.map Char.toLower

instance (a b : List Char) : Decidable (lowerEq a b) := by
  unfold lowerEq; infer_instance

/-- Value of a decimal digit string, Python `int(...)` on a `\d+` capture;
leading zeros are discarded by the numeral interpretation itself. -/
def digitsVal (l : List Char) : Nat :=
  l.foldl (fun acc c => 10 * acc + (c.toNat - 48)) 0

/-- Anchored match of `^<pre>(\d+)<suf>$` (compiled from escaped literals
with `re.IGNORECASE`) against `name`, returning the captured number.  With a
fixed-length literal on both sides of the single capture the split of `name`
is unique, so the regex match is equivalent to this length arithmetic. -/
def matchD (pre suf name : List Char) : Option Nat :=
  if pre.length + suf.length < name.length ∧
      lowerEq (name.take pre.length) pre ∧
      lowerEq (name.drop (name.length - suf.length)) suf ∧
      ((name.drop pre.length).take (name.length - pre.length - suf.length)).all
        Char.isDigit then
    some (digitsVal
      ((name.drop pre.length).take (name.length - pre.length - suf.length)))
  else none

/-- Is the character at index `i` a decimal digit. -/
def digitAt (cs : List Char) (i : Nat) : Bool :=
  match cs.get? i with
  | some c => c.isDigit
  | none => false

/-- Is the character at index `i` an ASCII letter. -/
def alphaAt (cs : List Char) (i : Nat) : Bool :=
  match cs.get? i with
  | some c => c.isAlpha
  | none => false

/-- Is the character at index `i` a letter or digit. -/
def alnumAt (cs : List Char) (i : Nat) : Bool :=
  match cs.get? i with
  | some c => c.isAlpha || c.isDigit
  | none => false

/-- Start indices of the maximal digit runs of `cs`: a digit position whose
predecessor is absent or not a digit.  These are exactly the starts of the
matches of `re.finditer(r"\d+", cs)`, in increasing order. -/
def runStarts (cs : List Char) : List Nat :=
  (List.range cs.length).filter
    (fun s => digitAt cs s && (decide (s = 0) || !digitAt cs (s - 1)))

/-- Length of the digit run beginning at index `s`. -/
def runLen (cs : List Char) (s : Nat) : Nat :=
  ((cs.drop s).takeWhile Char.isDigit).length

/-- The maximal digit runs of `cs` as (start, length) pairs, in increasing
start order: `list(re.finditer(r"\d+", cs))`. -/
def digitRuns (cs : List Char) : List (Nat × Nat) :=
  (runStarts cs).map (fun s => (s, runLen cs s))

/-- The `episode_map` accumulation loop shared by both candidate validators:
each file must match (`m` returns its captured episode number) and a number
already present invalidates the candidate.  Python dict insertion order is
kept by appending. -/
def buildEpisodeMap (m : List Char → Option Nat) :
    List MPath → List (Nat × MPath) → Option (List (Nat × MPath))
  | [], acc => some acc
  | f :: fs, acc =>
    match m f.name.data with
    | some k =>
        if (acc.map Prod.fst).contains k then none
        else buildEpisodeMap m fs (acc ++ [(k, f)])
    | none => none

/-- A candidate pattern is successful if it matched every single file and
each file mapped to a unique episode number. -/
def validateWith (m : List Char → Option Nat) (files : List MPath) :
    Option (List (Nat × MPath)) :=
  match buildEpisodeMap m files [] with
  | some mp => if mp.length = files.length then some mp else none
  | none => none

/-- First `some` produced by `f` along the list (the `return`-inside-`for`
idiom of the Python candidate loops). -/
def firstSome (f : α → Option β) : List α → Option β
  | [] => none
  | x :: xs =>
    match f x with
    | some y => some y
    | none => firstSome f xs

/-- Relational lifting to `Option`: both absent, or both present with
related values (used to compare the two phases of the matcher run on a
permuted file list). -/
def optRel {β β' : Type} (R : β → β' → Prop) :
    Option β → Option β' → Prop
  | some y, some y' => R y y'
  | none, none => True
  | _, _ => False

/-- constants.SPECIAL_EPISODE_PREFIXES -/
def SPECIAL_EPISODE_PREFIXES : List (List Char) :=
  ["OVA".data, "OAD".data, "SP".data, "Special".data, "Extra".data,
    "Bonus".data, "Movie".data]

/-- Occurrence test for `(?<![a-zA-Z])(<canon>)(\d*)(?![a-zA-Z\d])` at
index `s` of `cs` (IGNORECASE): the token matches case-insensitively at `s`,
the previous character is absent or not a letter, and the character after
the greedily captured digit run is absent or neither letter nor digit. -/
def occAt (canon cs : List Char) (s : Nat) : Bool :=
  decide (s + canon.length ≤ cs.length) &&
  decide (lowerEq ((cs.drop s).take canon.length) canon) &&
  (decide (s = 0) || !alphaAt cs (s - 1)) &&
  !alnumAt cs (s + canon.length + runLen cs (s + canon.length))

/-- Fuel-driven scanner behind `skipScan`; the fuel only forces structural
termination and is irrelevant once it exceeds the remaining length
(`skipScanF_fuel`), which keeps the definition computable by the kernel. -/
def skipScanF (canon cs : List Char) : Nat → Nat → List Nat
  | 0, _ => []
  | fuel + 1, i =>
    if i < cs.length then
      if occAt canon cs i then
        i :: skipScanF canon cs fuel
          (i + max 1 (canon.length + runLen cs (i + canon.length)))
      else
        skipScanF canon cs fuel (i + 1)
    else []

/-- Match start indices produced by `re.finditer` with the prefixed-marker
pattern: scan left to right, emit an occurrence and resume after its end
(`match.end() = s + len(canon) + digit-run length`), otherwise advance one
position (see `skipScan_eq` for the recursion this satisfies).  The `max 1`
only guards termination for an empty token; every token in
`SPECIAL_EPISODE_PREFIXES` is nonempty. -/
def skipScan (canon cs : List Char) (i : Nat) : List Nat :=
  skipScanF canon cs (cs.length + 1 - i) i

/-- Anchored match of `^<before>(?:<canon>)(\d*)<after>$` (IGNORECASE)
against `name`: the unique length-determined split must consist of the
literal before-part, the token, an all-digit (possibly empty) capture, and
the literal after-part; an empty capture means episode 1. -/
def matchPfx (before canon after name : List Char) : Option Nat :=
  if before.length + canon.length + after.length ≤ name.length ∧
      lowerEq (name.take before.length) before ∧
      lowerEq ((name.drop before.length).take canon.length) canon ∧
      ((name.drop (before.length + canon.length)).take
        (name.length - before.length - canon.length - after.length)).all
        Char.isDigit ∧
      lowerEq (name.drop (name.length - after.length)) after then
    some
      (if ((name.drop (before.length + canon.length)).take
            (name.length - before.length - canon.length - after.length)).isEmpty
        then 1
        else digitsVal ((name.drop (before.length + canon.length)).take
          (name.length - before.length - canon.length - after.length)))
  else none

/-- matcher._try_prefixed_pattern.  For each special token, each occurrence
in the first file name yields a candidate (`before`, token, `after`) that is
validated against every file; the first fully valid, fully distinct mapping
is returned.  Python indexes `files[0]` and is only called on nonempty
input; the empty case returns the empty mapping. -/
def try_prefixed_pattern (files : List MPath) : List (Nat × MPath) :=
  match files with
  | [] => []
  | tf :: _ =>
    let tmpl := tf.name.data
    match firstSome (fun canon =>
        firstSome (fun s =>
            validateWith
              (matchPfx (tmpl.take s) canon
                (tmpl.drop (s + canon.length + runLen tmpl (s + canon.length))))
              files)
          (skipScan canon tmpl 0))
        SPECIAL_EPISODE_PREFIXES with
    | some m => m
    | none => []

/-- matcher.extract_episode_numbers.  Empty input: empty map.  Single file:
episode 1.  Otherwise scan the digit runs of the first file name in reverse
order, validating the induced anchored pattern against all files, and fall
back to the prefixed-token patterns (the Python `if prefixed_result` plus
final `return` collapses to returning the fallback result, as a failed
fallback is the empty dict). -/
def extract_episode_numbers (files : List MPath) : List (Nat × MPath) :=
  match files with
  | [] => []
  | [f] => [(1, f)]
  | f :: _ :: _ =>
    let tmpl := f.name.data
    match firstSome (fun r =>
        validateWith (matchD (tmpl.take r.1) (tmpl.drop (r.1 + r.2))) files)
        (digitRuns tmpl).reverse with
    | some m => m
    | none => try_prefixed_pattern files

/-! ### analyzer.py -/

/-- The set comprehension over one kind of embedded track used by both
reconciler operations. -/
def typeKeys (ep : Episode) (track_type : TrackType) : Finset String :=
  ((ep.embedded_tracks.filter (fun t => t.track_type == track_type)).map
    Track.identity_key).toFinset

/-- analyzer._find_common_tracks: intersection of the per-episode identity
key sets, sorted for deterministic display; empty input gives an empty
list. -/
def find_common_tracks (episodes : List Episode) (track_type : TrackType) :
    List String :=
  match episodes with
  | [] => []
  | first_ep :: rest =>
      (rest.foldl (fun acc ep => acc ∩ typeKeys ep track_type)
        (typeKeys first_ep track_type)).sort (· ≤ ·)

/-- analyzer._detect_missing_tracks.  The Python value `list(missing_audio |
missing_subs)` enumerates a set in unspecified hash order; the embedding
keeps the set itself. -/
def detect_missing_tracks (episodes : List Episode)
    (common_audio common_subs : List String) : List (Nat × Finset String) :=
  episodes.filterMap (fun ep =>
    let missing_audio := common_audio.toFinset \ typeKeys ep .audio
    let missing_subs := common_subs.toFinset \ typeKeys ep .SUBTITLE
    if missing_audio ≠ ∅ ∨ missing_subs ≠ ∅ then
      some (ep.number, missing_audio ∪ missing_subs)
    else none)

/-- analyzer.get_track_by_identity -/
def get_track_by_identity (episode : Episode) (identity_key : String) :
    Option Track :=
  episode.embedded_tracks.find? (fun t => t.identity_key == identity_key)

/-! ### selector.py -/

/-- One operator answer to a gap prompt: an alternative source name, skip
the episode, or abort the run. -/
inductive GapChoice where
  | use (source : String)
  | skip
  | abort
deriving DecidableEq

/-- The interactive prompt capability: the operator decision given the track
kind, the selection identifier, the gap episode and the offered alternative
sources. -/
def GapOracle : Type := String → String → Nat → List String → GapChoice

/-- Alternative sources of the same kind covering a gap episode. -/
def alternativesFor (sources : List (String × ExternalSource))
    (selId : String) (ep : Nat) : List String :=
  (sources.filter (fun p =>
    decide (p.1 ≠ selId) && (List.lookup ep p.2.files).isSome)).map Prod.fst

/-- Episode numbers present in the analysis but absent from the source:
`sorted(all_episodes - source_episodes)`. -/
def missingEpisodes (analysis : AnalysisResult) (source : ExternalSource) :
    List Nat :=
  List.insertionSort (· ≤ ·)
    (((analysis.episodes.map Prod.fst).dedup).filter
      (fun e => (List.lookup e source.files).isNone))

/-- Python dict assignment `substitutions[ep_num] = choice`: update in place
if present, append otherwise. -/
def dictInsert (l : List (Nat × String)) (k : Nat) (v : String) :
    List (Nat × String) :=
  if l.any (fun p => p.1 == k) then
    l.map (fun p => if p.1 == k then (k, v) else p)
  else l ++ [(k, v)]

/-- The inner per-missing-episode loop of selector._handle_gaps.  With
alternatives the operator picks a substitution source, skips, or aborts;
without alternatives the only effective answers are skip or abort (the
prompt offers nothing else, and the if/elif chain ignores anything else). -/
def processMissing (oracle : GapOracle) (kind selId : String)
    (sources : List (String × ExternalSource)) :
    List Nat → List (Nat × String) × List Nat →
    Except String (List (Nat × String) × List Nat)
  | [], acc => .ok acc
  | ep :: rest, (subs, skipped) =>
    let alts := alternativesFor sources selId ep
    if alts.isEmpty then
      match oracle kind selId ep alts with
      | .skip => processMissing oracle kind selId sources rest (subs, skipped ++ [ep])
      | .abort => .error "User aborted due to missing episode"
      | .use _ => processMissing oracle kind selId sources rest (subs, skipped)
    else
      match oracle kind selId ep alts with
      | .skip => processMissing oracle kind selId sources rest (subs, skipped ++ [ep])
      | .abort => .error "User aborted due to missing episode"
      | .use n =>
          processMissing oracle kind selId sources rest (dictInsert subs ep n, skipped)

/-- The outer per-selection loop of selector._handle_gaps: embedded
selections need no resolution, unknown sources are skipped, and a source
with no missing episodes contributes nothing (the `continue`). -/
def gapsLoop (oracle : GapOracle) (kind : String)
    (sources : List (String × ExternalSource)) (analysis : AnalysisResult) :
    List TrackSelection → List (Nat × String) × List Nat →
    Except String (List (Nat × String) × List Nat)
  | [], acc => .ok acc
  | sel :: rest, acc =>
    if sel.is_embedded then gapsLoop oracle kind sources analysis rest acc
    else
      match List.lookup sel.identifier sources with
      | none => gapsLoop oracle kind sources analysis rest acc
      | some source =>
        match processMissing oracle kind sel.identifier sources
            (missingEpisodes analysis source) acc with
        | .ok acc2 => gapsLoop oracle kind sources analysis rest acc2
        | .error e => .error e

/-- selector._handle_gaps -/
def handle_gaps (analysis : AnalysisResult) (selections : List TrackSelection)
    (track_type : String) (oracle : GapOracle) :
    Except String (List (Nat × String) × List Nat) :=
  let sources :=
    if track_type == "audio" then analysis.external_audio_sources
    else analysis.external_subtitle_sources
  gapsLoop oracle track_type sources analysis selections ([], [])

/-- selector.select_tracks, with the checkbox stage abstracted into the two
already-built selection lists and the interactive prompts into the oracle.
Gap handling runs for audio then subtitles; an abort in either unwinds as an
error.  `list(set(a) | set(b))` enumerates a set in unspecified order and is
canonicalised as `(a ++ b).dedup`. -/
def select_tracks (analysis : AnalysisResult)
    (audio_selections subtitle_selections : List TrackSelection)
    (oracle : GapOracle) : Except String SelectionResult :=
  match handle_gaps analysis audio_selections "audio" oracle with
  | .error e => .error e
  | .ok (audio_subs, audio_skipped) =>
    match handle_gaps analysis subtitle_selections "subtitle" oracle with
    | .error e => .error e
    | .ok (sub_subs, sub_skipped) =>
      .ok ⟨audio_selections, subtitle_selections, audio_subs, sub_subs,
        (audio_skipped ++ sub_skipped).dedup⟩

/-- All gap prompts that a run over these selections poses, in order:
derived from the analysis and the selections alone (operator answers do not
alter which later prompts occur, only whether execution reaches them). -/
def gap_queries (analysis : AnalysisResult) (selections : List TrackSelection)
    (track_type : String) : List (String × Nat × List String) :=
  let sources :=
    if track_type == "audio" then analysis.external_audio_sources
    else analysis.external_subtitle_sources
  selections.flatMap (fun sel =>
    if sel.is_embedded then []
    else
      match List.lookup sel.identifier sources with
      | none => []
      | some source =>
        (missingEpisodes analysis source).map (fun ep =>
          (sel.identifier, ep, alternativesFor sources sel.identifier ep)))

/-! ### planner.py -/

/-- planner._get_video_track: first embedded track of video type. -/
def get_video_track (episode : Episode) : Option Track :=
  episode.embedded_tracks.find? (fun t => t.track_type == TrackType.VIDEO)

/-- The loop body of planner._resolve_audio_tracks. -/
def resolveStepA (episode : Episode) (selection_result : SelectionResult)
    (tracks : List Track) (sel : TrackSelection) : List Track :=
  if sel.is_embedded then
    match get_track_by_identity episode sel.identifier with
    | some t => tracks ++ [t]
    | none => tracks
  else
    let source_name :=
      match List.lookup episode.number selection_result.audio_substitutions with
      | some n => n
      | none => sel.identifier
    match List.lookup source_name episode.external_audio with
    | some t => tracks ++ [t]
    | none => tracks

/-- planner._resolve_audio_tracks -/
def resolve_audio_tracks (episode : Episode)
    (selection_result : SelectionResult) (analysis : AnalysisResult) :
    List Track :=
  selection_result.audio_selections.foldl
    (resolveStepA episode selection_result) []

/-- The loop body of planner._resolve_subtitle_tracks. -/
def resolveStepS (episode : Episode) (selection_result : SelectionResult)
    (tracks : List Track) (sel : TrackSelection) : List Track :=
  if sel.is_embedded then
    match get_track_by_identity episode sel.identifier with
    | some t => tracks ++ [t]
    | none => tracks
  else
    let source_name :=
      match List.lookup episode.number selection_result.subtitle_substitutions with
      | some n => n
      | none => sel.identifier
    match List.lookup source_name episode.external_subs with
    | some t => tracks ++ [t]
    | none => tracks

/-- planner._resolve_subtitle_tracks -/
def resolve_subtitle_tracks (episode : Episode)
    (selection_result : SelectionResult) (analysis : AnalysisResult) :
    List Track :=
  selection_result.subtitle_selections.foldl
    (resolveStepS episode selection_result) []

/-- The loop body of planner.build_merge_plan: skip episodes in the
(growing) skip list, force-skip an episode with no video track, otherwise
emit its job. -/
def planStep (analysis : AnalysisResult) (selection_result : SelectionResult)
    (output_dir : MPath) (acc : List MergeJob × List Nat) (p : Nat × Episode) :
    List MergeJob × List Nat :=
  if p.1 ∈ acc.2 then acc
  else
    match get_video_track p.2 with
    | none => (acc.1, acc.2 ++ [p.1])
    | some video_track =>
      (acc.1 ++
        [{ episode := p.2,
           output_path := output_dir.join p.2.video_file.name,
           video_tracks := [video_track],
           audio_tracks := resolve_audio_tracks p.2 selection_result analysis,
           subtitle_tracks := resolve_subtitle_tracks p.2 selection_result analysis,
           preserve_attachments := true }], acc.2)

/-- planner.build_merge_plan.  `sorted(analysis.episodes.items())` sorts the
distinct episode numbers ascending; `skipped` starts as a copy of the
selection skip list and grows by the episodes lacking a video track. -/
def build_merge_plan (analysis : AnalysisResult)
    (selection_result : SelectionResult) (output_dir : MPath) : MergePlan :=
  let sortedEps := List.insertionSort (fun a b => a.1 ≤ b.1) analysis.episodes
  let r := sortedEps.foldl (planStep analysis selection_result output_dir)
    ([], selection_result.skipped_episodes)
  ⟨r.1, output_dir, r.2⟩

/-- Specification of the job emitted for one episode entry: an episode
outside the original skip set owning a video track yields a job. -/
def planJob (analysis : AnalysisResult) (selection_result : SelectionResult)
    (output_dir : MPath) (p : Nat × Episode) : Option MergeJob :=
  if p.1 ∈ selection_result.skipped_episodes then none
  else
    match get_video_track p.2 with
    | none => none
    | some video_track =>
      some { episode := p.2,
             output_path := output_dir.join p.2.video_file.name,
             video_tracks := [video_track],
             audio_tracks := resolve_audio_tracks p.2 selection_result analysis,
             subtitle_tracks := resolve_subtitle_tracks p.2 selection_result analysis,
             preserve_attachments := true }

/-- Specification of the force-skipped episodes: outside the original skip
set but owning no video track. -/
def planSkip (selection_result : SelectionResult) (p : Nat × Episode) :
    Option Nat :=
  if p.1 ∉ selection_result.skipped_episodes ∧ get_video_track p.2 = none then
    some p.1
  else none

/-! ### auxiliary specification-side definitions -/

/-- Reference decimal rendering of a natural number, used to reason about
`Nat.repr` (which core computes with fuel). -/
def rep (n : Nat) : List Char :=
  if h : n < 10 then [Nat.digitChar n]
  else rep (n / 10) ++ [Nat.digitChar (n % 10)]
termination_by n
decreasing_by
  have h10 : n / 10 < n := Nat.div_lt_self (by omega) (by omega)
  omega

/-- A string free of the `|` separator used by identity keys. -/
def noPipe (s : String) : Prop := '|' ∉ s.data

instance (s : String) : Decidable (noPipe s) := by
  unfold noPipe; infer_instance

/-- Strings of the shape produced by `identity_key` on audio tracks. -/
def audioTagged (s : String) : Prop :=
  s.data.take 6 = ['a', 'u', 'd', 'i', 'o', '|']

instance (s : String) : Decidable (audioTagged s) := by
  unfold audioTagged; infer_instance

/-- Strings of the shape produced by `identity_key` on subtitle tracks. -/
def subTagged (s : String) : Prop :=
  s.data.take 4 = ['s', 'u', 'b', '|']

instance (s : String) : Decidable (subTagged s) := by
  unfold subTagged; infer_instance

/-- The identity keys of all embedded tracks of an episode, of any kind. -/
def allKeys (ep : Episode) : Finset String :=
  (ep.embedded_tracks.map Track.identity_key).toFinset

/-- A minimal embedded audio track, for concrete scenarios. -/
def sampleAudio (lang : String) : Track :=
  { index := 0, track_type := .audio, codec := "aac", language := lang,
    title := none, source := .EMBEDDED, source_file := ⟨[], "e.mkv"⟩ }

/-- A minimal episode with the given embedded audio languages. -/
def sampleEp (n : Nat) (langs : List String) : Episode :=
  { number := n, video_file := ⟨[], "e.mkv"⟩,
    embedded_tracks := langs.map sampleAudio }

/-! ## Decimal rendering facts (for the identity-key claims) -/

theorem digitsVal_append (xs : List Char) (c : Char) :
    digitsVal (xs ++ [c]) = 10 * digitsVal xs + (c.toNat - 48) := by
  unfold digitsVal
  rw [List.foldl_append]
  rfl

theorem digitChar_toNat {d : Nat} (h : d < 10) :
    (Nat.digitChar d).toNat = 48 + d := by
  interval_cases d <;> rfl

theorem digitsVal_rep (n : Nat) : digitsVal (rep n) = n := by
  induction n using Nat.strong_induction_on with
  | _ n ih =>
    rw [rep]
    split
    · next h =>
      have hc := digitChar_toNat h
      simp [digitsVal, hc]
    · next h =>
      have hdiv : n / 10 < n := Nat.div_lt_self (by omega) (by omega)
      have hm : n % 10 < 10 := Nat.mod_lt _ (by omega)
      rw [digitsVal_append, ih _ hdiv, digitChar_toNat hm]
      omega

theorem rep_injective {m n : Nat} (h : rep m = rep n) : m = n := by
  have := digitsVal_rep m
  rw [h, digitsVal_rep] at this
  omega

theorem toDigitsCore_eq_rep :
    ∀ (f n : Nat) (acc : List Char), n < f →
      Nat.toDigitsCore 10 f n acc = rep n ++ acc := by
  intro f
  induction f with
  | zero => omega
  | succ f ih =>
    intro n acc h
    show (if n / 10 = 0 then Nat.digitChar (n % 10) :: acc
          else Nat.toDigitsCore 10 f (n / 10) (Nat.digitChar (n % 10) :: acc)) =
        rep n ++ acc
    by_cases h0 : n / 10 = 0
    · have hn : n < 10 := by omega
      rw [if_pos h0, rep, dif_pos hn, Nat.mod_eq_of_lt hn]
      rfl
    · have hn : ¬ n < 10 := by
        intro hlt
        exact h0 (Nat.div_eq_of_lt hlt)
      have hdiv : n / 10 < n := Nat.div_lt_self (by omega) (by omega)
      rw [if_neg h0, ih (n / 10) _ (by omega)]
      conv_rhs => rw [rep]
      rw [dif_neg hn, List.append_assoc]
      rfl

theorem nat_repr_data (n : Nat) : (Nat.repr n).data = rep n := by
  show (Nat.toDigitsCore 10 (n + 1) n []).asString.data = rep n
  rw [toDigitsCore_eq_rep (n + 1) n [] (by omega), List.append_nil]
  rfl

theorem toString_nat_injective {m n : Nat} (h : toString m = toString n) :
    m = n := by
  apply rep_injective
  rw [← nat_repr_data, ← nat_repr_data]
  exact congrArg String.data h

theorem digitChar_ne_pipe {d : Nat} (h : d < 10) : Nat.digitChar d ≠ '|' := by
  interval_cases d <;> decide

theorem rep_noPipe (n : Nat) : '|' ∉ rep n := by
  induction n using Nat.strong_induction_on with
  | _ n ih =>
    rw [rep]
    split
    · next h =>
      intro hm
      simp only [List.mem_singleton] at hm
      exact digitChar_ne_pipe h hm.symm
    · next h =>
      have hdiv : n / 10 < n := Nat.div_lt_self (by omega) (by omega)
      have hm : n % 10 < 10 := Nat.mod_lt _ (by omega)
      simp only [List.mem_append, List.mem_singleton]
      rintro (hmem | hmem)
      · exact ih _ hdiv hmem
      · exact digitChar_ne_pipe hm hmem.symm

/-! ## Identity keys (claim C2) -/

theorem pipe_split {a b r1 r2 : List Char} (ha : '|' ∉ a) (hb : '|' ∉ b)
    (h : a ++ '|' :: r1 = b ++ '|' :: r2) : a = b ∧ r1 = r2 := by
  induction a generalizing b with
  | nil =>
    cases b with
    | nil => simpa using h
    | cons y ys =>
      simp only [List.nil_append, List.cons_append, List.cons.injEq] at h
      exact absurd (h.1 ▸ List.mem_cons_self y ys) (h.1 ▸ hb)
  | cons x xs ih =>
    cases b with
    | nil =>
      simp only [List.cons_append, List.nil_append, List.cons.injEq] at h
      exact absurd (h.1 ▸ List.mem_cons_self x xs) (h.1 ▸ ha)
    | cons y ys =>
      simp only [List.cons_append, List.cons.injEq] at h
      have ha' : '|' ∉ xs := fun hm => ha (List.mem_cons_of_mem _ hm)
      have hb' : '|' ∉ ys := fun hm => hb (List.mem_cons_of_mem _ hm)
      obtain ⟨hxy, hrest⟩ := h
      obtain ⟨h1, h2⟩ := ih ha' hb' hrest
      exact ⟨by rw [hxy, h1], h2⟩

theorem toString_nat_eq_repr (n : Nat) : toString n = Nat.repr n := rfl

theorem audio_key_data (t : Track) (h : t.track_type = .audio) :
    t.identity_key.data =
      'a' :: 'u' :: 'd' :: 'i' :: 'o' :: '|' ::
        (t.language.data ++ '|' :: ((t.title.getD "").data ++ '|' ::
          rep (t.channels.getD 0))) := by
  unfold Track.identity_key
  rw [h]
  show ("audio|" ++ t.language ++ "|" ++ t.title.getD "" ++ "|" ++
      toString (t.channels.getD 0)).data = _
  rw [toString_nat_eq_repr]
  simp [nat_repr_data]

theorem sub_key_data (t : Track) (h : t.track_type = .SUBTITLE) :
    t.identity_key.data =
      's' :: 'u' :: 'b' :: '|' ::
        (t.language.data ++ '|' :: ((t.title.getD "").data ++ '|' ::
          (pyBool t.is_forced).data)) := by
  unfold Track.identity_key
  rw [h]
  show ("sub|" ++ t.language ++ "|" ++ t.title.getD "" ++ "|" ++
      pyBool t.is_forced).data = _
  simp

theorem audio_key_inj {t1 t2 : Track} (h1 : t1.track_type = .audio)
    (h2 : t2.track_type = .audio) (np1 : noPipe t1.language)
    (np2 : noPipe t2.language) (nt1 : noPipe (t1.title.getD ""))
    (nt2 : noPipe (t2.title.getD ""))
    (hk : t1.identity_key = t2.identity_key) :
    t1.language = t2.language ∧ t1.title.getD "" = t2.title.getD "" ∧
      t1.channels.getD 0 = t2.channels.getD 0 := by
  have hd := congrArg String.data hk
  rw [audio_key_data t1 h1, audio_key_data t2 h2] at hd
  simp only [List.cons.injEq, true_and] at hd
  obtain ⟨hL, hrest⟩ := pipe_split np1 np2 hd
  obtain ⟨hT, hC⟩ := pipe_split nt1 nt2 hrest
  exact ⟨String.ext hL, String.ext hT, rep_injective hC⟩

theorem sub_key_inj {t1 t2 : Track} (h1 : t1.track_type = .SUBTITLE)
    (h2 : t2.track_type = .SUBTITLE) (np1 : noPipe t1.language)
    (np2 : noPipe t2.language) (nt1 : noPipe (t1.title.getD ""))
    (nt2 : noPipe (t2.title.getD ""))
    (hk : t1.identity_key = t2.identity_key) :
    t1.language = t2.language ∧ t1.title.getD "" = t2.title.getD "" ∧
      t1.is_forced = t2.is_forced := by
  have hd := congrArg String.data hk
  rw [sub_key_data t1 h1, sub_key_data t2 h2] at hd
  simp only [List.cons.injEq, true_and] at hd
  obtain ⟨hL, hrest⟩ := pipe_split np1 np2 hd
  obtain ⟨hT, hF⟩ := pipe_split nt1 nt2 hrest
  refine ⟨String.ext hL, String.ext hT, ?_⟩
  cases hf1 : t1.is_forced <;> cases hf2 : t2.is_forced <;>
    rw [hf1, hf2] at hF <;> simp_all [pyBool]

/-- C2 counterexample: two audio tracks equal in every field except
`channels` (`None` versus `0`) receive the same identity key, because
`self.channels or 0` maps both to the placeholder `0`.  This falsifies the
claim that same-kind tracks differing in `channels` always get different
identity keys. -/
theorem C2_identity_key_counterexample :
    (Track.identity_key
        { index := 0, track_type := .audio, codec := "aac", language := "ja",
          title := none, source := .EMBEDDED, source_file := ⟨[], "a.mkv"⟩,
          channels := none } =
      Track.identity_key
        { index := 0, track_type := .audio, codec := "aac", language := "ja",
          title := none, source := .EMBEDDED, source_file := ⟨[], "a.mkv"⟩,
          channels := some 0 }) ∧
    (none : Option Nat) ≠ some 0 := by
  exact ⟨rfl, by decide⟩

/-- C2 (amended): identity keys ignore `index` and `source_file`
unconditionally; and two same-kind tracks get different identity keys when
they differ in language, title, channels (audio) or the forced flag
(subtitle), provided language and title are `|`-free and the comparison is
on the normalised values the code actually uses (`title or ''`,
`channels or 0`) — without those provisos the code identifies `None` with
`''`/`0` and a `|` inside a field can shift the separators. -/
theorem C2_identity_key_discrimination :
    (∀ (t : Track) (i : Nat) (f : MPath),
        Track.identity_key { t with index := i, source_file := f } =
          Track.identity_key t)
    ∧ (∀ t1 t2 : Track, t1.track_type = .audio → t2.track_type = .audio →
        noPipe t1.language → noPipe t2.language → noPipe (t1.title.getD "") →
        noPipe (t2.title.getD "") →
        (t1.language ≠ t2.language ∨ t1.title.getD "" ≠ t2.title.getD "" ∨
          t1.channels.getD 0 ≠ t2.channels.getD 0) →
        Track.identity_key t1 ≠ Track.identity_key t2)
    ∧ (∀ t1 t2 : Track, t1.track_type = .SUBTITLE → t2.track_type = .SUBTITLE →
        noPipe t1.language → noPipe t2.language → noPipe (t1.title.getD "") →
        noPipe (t2.title.getD "") →
        (t1.language ≠ t2.language ∨ t1.title.getD "" ≠ t2.title.getD "" ∨
          t1.is_forced ≠ t2.is_forced) →
        Track.identity_key t1 ≠ Track.identity_key t2) := by
  refine ⟨fun t i f => rfl, ?_, ?_⟩
  · intro t1 t2 h1 h2 np1 np2 nt1 nt2 hdiff hk
    obtain ⟨hL, hT, hC⟩ := audio_key_inj h1 h2 np1 np2 nt1 nt2 hk
    rcases hdiff with h | h | h <;> exact h (by assumption)
  · intro t1 t2 h1 h2 np1 np2 nt1 nt2 hdiff hk
    obtain ⟨hL, hT, hF⟩ := sub_key_inj h1 h2 np1 np2 nt1 nt2 hk
    rcases hdiff with h | h | h <;> exact h (by assumption)

/-- Witness for C2: concrete audio tracks differing only in language get
different identity keys. -/
theorem C2_identity_key_discrimination_witness :
    Track.identity_key
        { index := 0, track_type := .audio, codec := "aac", language := "ja",
          title := some "Main", source := .EMBEDDED,
          source_file := ⟨[], "a.mkv"⟩, channels := some 2 } ≠
      Track.identity_key
        { index := 3, track_type := .audio, codec := "aac", language := "en",
          title := some "Main", source := .EMBEDDED,
          source_file := ⟨[], "b.mkv"⟩, channels := some 2 } := by
  exact C2_identity_key_discrimination.2.1 _ _ rfl rfl (by decide) (by decide)
    (by decide) (by decide) (Or.inl (by decide))

/-! ## Track reconciler (claims C6, C7) -/

theorem mem_foldl_inter (l : List Episode) (track_type : TrackType)
    (init : Finset String) (s : String) :
    (s ∈ l.foldl (fun acc ep => acc ∩ typeKeys ep track_type) init) ↔
      s ∈ init ∧ ∀ ep ∈ l, s ∈ typeKeys ep track_type := by
  induction l generalizing init with
  | nil => simp
  | cons e rest ih =>
    rw [List.foldl_cons, ih]
    simp only [Finset.mem_inter, List.mem_cons]
    constructor
    · rintro ⟨⟨h1, h2⟩, h3⟩
      exact ⟨h1, fun ep hep => by rcases hep with rfl | hep
                                  exacts [h2, h3 ep hep]⟩
    · rintro ⟨h1, h2⟩
      exact ⟨⟨h1, h2 e (Or.inl rfl)⟩, fun ep hep => h2 ep (Or.inr hep)⟩

/-- C6: for any kind, the common-track computation returns exactly the
sorted (and duplicate-free) intersection of the per-episode identity-key
sets of embedded tracks of that kind; the empty episode list yields the
empty list; and over episodes with embedded audio identity sets
corresponding to languages A and B, A and B, A and C it yields exactly the
key of A. -/
theorem C6_find_common_tracks :
    (∀ track_type : TrackType, find_common_tracks [] track_type = [])
    ∧ (∀ (e : Episode) (rest : List Episode) (track_type : TrackType),
        (find_common_tracks (e :: rest) track_type).Sorted (· ≤ ·) ∧
        (find_common_tracks (e :: rest) track_type).Nodup ∧
        (∀ s : String, s ∈ find_common_tracks (e :: rest) track_type ↔
          ∀ ep ∈ e :: rest, s ∈ typeKeys ep track_type))
    ∧ find_common_tracks
        [sampleEp 1 ["A", "B"], sampleEp 2 ["A", "B"], sampleEp 3 ["A", "C"]]
        .audio = [(sampleAudio "A").identity_key] := by
  refine ⟨fun _ => rfl, ?_, ?_⟩
  case refine_2 =>
    show Finset.sort (· ≤ ·)
        ([sampleEp 2 ["A", "B"], sampleEp 3 ["A", "C"]].foldl
          (fun acc ep => acc ∩ typeKeys ep .audio)
          (typeKeys (sampleEp 1 ["A", "B"]) .audio)) = _
    rw [show ([sampleEp 2 ["A", "B"], sampleEp 3 ["A", "C"]].foldl
          (fun acc ep => acc ∩ typeKeys ep .audio)
          (typeKeys (sampleEp 1 ["A", "B"]) .audio)) =
        {(sampleAudio "A").identity_key} by decide]
    exact Finset.sort_singleton _ _
  intro e rest track_type
  refine ⟨Finset.sort_sorted _ _, Finset.sort_nodup _ _, ?_⟩
  intro s
  show s ∈ Finset.sort (· ≤ ·) _ ↔ _
  rw [Finset.mem_sort, mem_foldl_inter]
  simp only [List.mem_cons]
  constructor
  · rintro ⟨h1, h2⟩ ep hep
    rcases hep with rfl | hep
    exacts [h1, h2 ep hep]
  · intro h
    exact ⟨h e (Or.inl rfl), fun ep hep => h ep (Or.inr hep)⟩

theorem video_key_data (t : Track) (h : t.track_type = .VIDEO) :
    t.identity_key.data =
      'V' :: 'I' :: 'D' :: 'E' :: 'O' :: '|' :: t.codec.data := by
  unfold Track.identity_key
  rw [h]
  show ((TrackType.VIDEO).pyName ++ "|" ++ t.codec).data = _
  rw [String.data_append]
  rfl

theorem att_key_data (t : Track) (h : t.track_type = .ATTACHMENT) :
    t.identity_key.data =
      'A' :: 'T' :: 'T' :: 'A' :: 'C' :: 'H' :: 'M' :: 'E' :: 'N' :: 'T' ::
        '|' :: t.codec.data := by
  unfold Track.identity_key
  rw [h]
  show ((TrackType.ATTACHMENT).pyName ++ "|" ++ t.codec).data = _
  rw [String.data_append]
  rfl

theorem identity_key_audioTagged (t : Track) :
    audioTagged t.identity_key ↔ t.track_type = .audio := by
  unfold audioTagged
  cases htt : t.track_type
  case audio => simp [audio_key_data t htt]
  case SUBTITLE => simp [sub_key_data t htt]
  case VIDEO => simp [video_key_data t htt]
  case ATTACHMENT => simp [att_key_data t htt]

theorem identity_key_subTagged (t : Track) :
    subTagged t.identity_key ↔ t.track_type = .SUBTITLE := by
  unfold subTagged
  cases htt : t.track_type
  case audio => simp [audio_key_data t htt]
  case SUBTITLE => simp [sub_key_data t htt]
  case VIDEO => simp [video_key_data t htt]
  case ATTACHMENT => simp [att_key_data t htt]

theorem mem_typeKeys {ep : Episode} {track_type : TrackType} {s : String} :
    s ∈ typeKeys ep track_type ↔
      ∃ t ∈ ep.embedded_tracks, t.track_type = track_type ∧
        t.identity_key = s := by
  unfold typeKeys
  simp only [List.mem_toFinset, List.mem_map, List.mem_filter, beq_iff_eq]
  tauto

theorem mem_allKeys {ep : Episode} {s : String} :
    s ∈ allKeys ep ↔ ∃ t ∈ ep.embedded_tracks, t.identity_key = s := by
  unfold allKeys
  simp only [List.mem_toFinset, List.mem_map]

theorem tagged_sdiff_allKeys {ep : Episode} {l : List String}
    {track_type : TrackType}
    (htag : ∀ k ∈ l, (if track_type = .audio then audioTagged k else subTagged k))
    (htt : track_type = .audio ∨ track_type = .SUBTITLE) :
    l.toFinset \ typeKeys ep track_type = l.toFinset \ allKeys ep := by
  ext k
  simp only [Finset.mem_sdiff, List.mem_toFinset]
  constructor
  · rintro ⟨hk, hnot⟩
    refine ⟨hk, fun hmem => hnot ?_⟩
    obtain ⟨t, ht, rfl⟩ := mem_allKeys.1 hmem
    have := htag _ hk
    rcases htt with rfl | rfl
    · rw [if_pos rfl] at this
      exact mem_typeKeys.2 ⟨t, ht, (identity_key_audioTagged t).1 this, rfl⟩
    · rw [if_neg (by decide)] at this
      exact mem_typeKeys.2 ⟨t, ht, (identity_key_subTagged t).1 this, rfl⟩
  · rintro ⟨hk, hnot⟩
    refine ⟨hk, fun hmem => hnot ?_⟩
    obtain ⟨t, ht, htt2, rfl⟩ := mem_typeKeys.1 hmem
    exact mem_allKeys.2 ⟨t, ht, rfl⟩

/-- C7: when the common lists hold audio and subtitle identity keys (as the
reconciler produces), missing-track detection maps each episode to the
identities from the combined common-audio and common-subtitle sets that its
embedded tracks lack, and an episode appears in the result exactly when
that combined missing set is nonempty. -/
theorem C7_detect_missing_tracks (eps : List Episode)
    (common_audio common_subs : List String)
    (ha : ∀ k ∈ common_audio, audioTagged k)
    (hs : ∀ k ∈ common_subs, subTagged k) :
    detect_missing_tracks eps common_audio common_subs =
      eps.filterMap (fun ep =>
        let m := (common_audio.toFinset ∪ common_subs.toFinset) \ allKeys ep
        if m ≠ ∅ then some (ep.number, m) else none) := by
  unfold detect_missing_tracks
  apply List.filterMap_congr
  intro ep _
  have hma : common_audio.toFinset \ typeKeys ep .audio =
      common_audio.toFinset \ allKeys ep :=
    @tagged_sdiff_allKeys _ _ .audio (by simpa using ha) (Or.inl rfl)
  have hms : common_subs.toFinset \ typeKeys ep .SUBTITLE =
      common_subs.toFinset \ allKeys ep :=
    @tagged_sdiff_allKeys _ _ .SUBTITLE (by simpa using hs)
      (Or.inr rfl)
  simp only [hma, hms]
  have hval : common_audio.toFinset \ allKeys ep ∪
      common_subs.toFinset \ allKeys ep =
      (common_audio.toFinset ∪ common_subs.toFinset) \ allKeys ep :=
    (Finset.union_sdiff_distrib _ _ _).symm
  have hcond : (common_audio.toFinset \ allKeys ep ≠ ∅ ∨
      common_subs.toFinset \ allKeys ep ≠ ∅) ↔
      ((common_audio.toFinset ∪ common_subs.toFinset) \ allKeys ep ≠ ∅) := by
    rw [← hval]
    constructor
    · rintro (h | h) <;> intro he <;> rw [Finset.union_eq_empty] at he
      exacts [h he.1, h he.2]
    · intro h
      by_contra hc
      push_neg at hc
      exact h (by rw [Finset.union_eq_empty]; exact hc)
  exact if_congr hcond (by rw [hval]) rfl

/-- Witness for C7 at the spec example: audio identity sets A,B / A,B / A,C
with common audio key A and common subtitle list empty flag only the third
episode... actually with common list [A,B] the third episode lacks B. -/
theorem C7_detect_missing_tracks_witness :
    detect_missing_tracks
        [sampleEp 1 ["A", "B"], sampleEp 2 ["A", "B"], sampleEp 3 ["A", "C"]]
        [(sampleAudio "A").identity_key, (sampleAudio "B").identity_key] [] =
      [sampleEp 1 ["A", "B"], sampleEp 2 ["A", "B"],
        sampleEp 3 ["A", "C"]].filterMap (fun ep =>
          let m := ([(sampleAudio "A").identity_key,
            (sampleAudio "B").identity_key].toFinset ∪
              List.toFinset []) \ allKeys ep
          if m ≠ ∅ then some (ep.number, m) else none) := by
  exact C7_detect_missing_tracks _ _ _ (by decide) (by decide)

/-! ## Planner (claims C4, C8, C10) -/

theorem match_opt_toList {β : Type} (o : Option β) (acc : List β) :
    (match o with
      | some t => acc ++ [t]
      | none => acc) = acc ++ o.toList := by
  cases o <;> simp

theorem foldl_opt_append {α β : Type} (g : α → Option β) (l : List α)
    (init : List β) :
    l.foldl (fun acc x => acc ++ (g x).toList) init =
      init ++ l.filterMap g := by
  induction l generalizing init with
  | nil => simp
  | cons x xs ih =>
    rw [List.foldl_cons]
    cases hg : g x
    · rw [List.filterMap_cons_none hg]
      simpa using ih init
    · next t =>
      rw [List.filterMap_cons_some hg]
      simpa [List.append_assoc] using ih (init ++ [t])

/-- C8: per-episode external resolution.  Each external selection looks up
the substitution source recorded for the episode number if one exists, else
the originally selected name, in the episode's external-audio (resp.
external-subtitle) mapping; absence contributes no track (the function is
total, so no error is possible), and embedded selections resolve by
identity key. -/
theorem C8_resolve_external_substitution (episode : Episode)
    (selection_result : SelectionResult) (analysis : AnalysisResult) :
    resolve_audio_tracks episode selection_result analysis =
      selection_result.audio_selections.filterMap (fun sel =>
        if sel.is_embedded then get_track_by_identity episode sel.identifier
        else
          List.lookup
            (match List.lookup episode.number
                selection_result.audio_substitutions with
             | some n => n
             | none => sel.identifier)
            episode.external_audio)
    ∧ resolve_subtitle_tracks episode selection_result analysis =
      selection_result.subtitle_selections.filterMap (fun sel =>
        if sel.is_embedded then get_track_by_identity episode sel.identifier
        else
          List.lookup
            (match List.lookup episode.number
                selection_result.subtitle_substitutions with
             | some n => n
             | none => sel.identifier)
            episode.external_subs) := by
  constructor
  · unfold resolve_audio_tracks
    have hf : resolveStepA episode selection_result =
        (fun (tracks : List Track) sel =>
          tracks ++ (if sel.is_embedded then
              get_track_by_identity episode sel.identifier
            else
              List.lookup
                (match List.lookup episode.number
                    selection_result.audio_substitutions with
                 | some n => n
                 | none => sel.identifier)
                episode.external_audio).toList) := by
      funext tracks sel
      unfold resolveStepA
      by_cases hemb : sel.is_embedded
      · simp only [hemb, ite_true]
        cases get_track_by_identity episode sel.identifier <;> simp
      · simp only [hemb, Bool.false_eq_true, ite_false]
        cases List.lookup
            (match List.lookup episode.number
                selection_result.audio_substitutions with
             | some n => n
             | none => sel.identifier)
            episode.external_audio <;> simp
    rw [hf]
    rw [foldl_opt_append]
    exact List.nil_append _
  · unfold resolve_subtitle_tracks
    have hf : resolveStepS episode selection_result =
        (fun (tracks : List Track) sel =>
          tracks ++ (if sel.is_embedded then
              get_track_by_identity episode sel.identifier
            else
              List.lookup
                (match List.lookup episode.number
                    selection_result.subtitle_substitutions with
                 | some n => n
                 | none => sel.identifier)
                episode.external_subs).toList) := by
      funext tracks sel
      unfold resolveStepS
      by_cases hemb : sel.is_embedded
      · simp only [hemb, ite_true]
        cases get_track_by_identity episode sel.identifier <;> simp
      · simp only [hemb, Bool.false_eq_true, ite_false]
        cases List.lookup
            (match List.lookup episode.number
                selection_result.subtitle_substitutions with
             | some n => n
             | none => sel.identifier)
            episode.external_subs <;> simp
    rw [hf]
    rw [foldl_opt_append]
    exact List.nil_append _

theorem planStep_skip_ext (analysis : AnalysisResult)
    (selection_result : SelectionResult) (output_dir : MPath) :
    ∀ (l : List (Nat × Episode)) (acc : List MergeJob × List Nat),
      ∃ extra,
        (l.foldl (planStep analysis selection_result output_dir) acc).2 =
          acc.2 ++ extra := by
  have hstep : ∀ (acc : List MergeJob × List Nat) (p : Nat × Episode),
      ∃ e, (planStep analysis selection_result output_dir acc p).2 =
        acc.2 ++ e := by
    intro acc p
    unfold planStep
    by_cases hmem : p.1 ∈ acc.2
    · rw [if_pos hmem]
      exact ⟨[], by simp⟩
    · rw [if_neg hmem]
      cases get_video_track p.2
      · exact ⟨[p.1], rfl⟩
      · exact ⟨[], by simp⟩
  intro l
  induction l with
  | nil => exact fun acc => ⟨[], by simp⟩
  | cons p rest ih =>
    intro acc
    rw [List.foldl_cons]
    obtain ⟨e1, h1⟩ := hstep acc p
    obtain ⟨extra, hex⟩ :=
      ih (planStep analysis selection_result output_dir acc p)
    exact ⟨e1 ++ extra, by rw [hex, h1, List.append_assoc]⟩

/-- C10: build_merge_plan works on a copy of the selection skip list — the
embedding of Python `list(selection_result.skipped_episodes)` followed only
by appends — so the input list is untouched and the plan skip list extends
it; the concrete instance shows a proper extension when an episode lacks a
video track. -/
theorem C10_build_merge_plan_frame :
    (∀ (analysis : AnalysisResult) (selection_result : SelectionResult)
        (output_dir : MPath),
      ∃ extra,
        (build_merge_plan analysis selection_result output_dir).skipped_episodes =
          selection_result.skipped_episodes ++ extra) ∧
    (build_merge_plan
        { episodes := [(1, { number := 1, video_file := ⟨[], "e1.mkv"⟩ })],
          common_embedded_audio := [], common_embedded_subs := [],
          external_audio_sources := [], external_subtitle_sources := [],
          missing_tracks := [], unmatched_external_files := [] }
        { audio_selections := [], subtitle_selections := [],
          audio_substitutions := [], subtitle_substitutions := [],
          skipped_episodes := [7] }
        ⟨[], "out"⟩).skipped_episodes = [7] ++ [1] := by
  constructor
  · intro analysis selection_result output_dir
    obtain ⟨extra, hex⟩ := planStep_skip_ext analysis selection_result
      output_dir (List.insertionSort (fun a b => a.1 ≤ b.1) analysis.episodes)
      ([], selection_result.skipped_episodes)
    exact ⟨extra, hex⟩
  · rfl

theorem plan_foldl_spec (analysis : AnalysisResult)
    (selection_result : SelectionResult) (output_dir : MPath) :
    ∀ (l : List (Nat × Episode)) (jobs0 : List MergeJob) (extra0 : List Nat),
      (∀ p ∈ l, p.1 ∉ extra0) → (l.map Prod.fst).Nodup →
      l.foldl (planStep analysis selection_result output_dir)
        (jobs0, selection_result.skipped_episodes ++ extra0) =
        (jobs0 ++ l.filterMap (planJob analysis selection_result output_dir),
         selection_result.skipped_episodes ++ extra0 ++
           l.filterMap (planSkip selection_result)) := by
  intro l
  induction l with
  | nil => intro jobs0 extra0 _ _; simp
  | cons p rest ih =>
    intro jobs0 extra0 hdis hnd
    have hpextra : p.1 ∉ extra0 := hdis p (List.mem_cons_self _ _)
    have hdis' : ∀ q ∈ rest, q.1 ∉ extra0 :=
      fun q hq => hdis q (List.mem_cons_of_mem _ hq)
    have hnd' : (rest.map Prod.fst).Nodup := by
      rw [List.map_cons] at hnd
      exact hnd.of_cons
    have hpnotin : p.1 ∉ rest.map Prod.fst := by
      rw [List.map_cons] at hnd
      exact (List.nodup_cons.1 hnd).1
    rw [List.foldl_cons]
    by_cases hsk : p.1 ∈ selection_result.skipped_episodes
    · have hmem : p.1 ∈ selection_result.skipped_episodes ++ extra0 :=
        List.mem_append_left _ hsk
      rw [show planStep analysis selection_result output_dir
          (jobs0, selection_result.skipped_episodes ++ extra0) p =
          (jobs0, selection_result.skipped_episodes ++ extra0) from by
        unfold planStep; rw [if_pos hmem]]
      rw [ih jobs0 extra0 hdis' hnd']
      rw [List.filterMap_cons_none
          (show planJob analysis selection_result output_dir p = none from by
            unfold planJob; rw [if_pos hsk]),
        List.filterMap_cons_none
          (show planSkip selection_result p = none from by
            unfold planSkip; rw [if_neg (by simp [hsk])])]
    · have hmem : p.1 ∉ selection_result.skipped_episodes ++ extra0 := by
        intro hc
        rcases List.mem_append.1 hc with hc | hc
        exacts [hsk hc, hpextra hc]
      cases hv : get_video_track p.2
      · rw [show planStep analysis selection_result output_dir
            (jobs0, selection_result.skipped_episodes ++ extra0) p =
            (jobs0, selection_result.skipped_episodes ++ (extra0 ++ [p.1]))
            from by
          unfold planStep; rw [if_neg hmem, hv, List.append_assoc]]
        have hdis2 : ∀ q ∈ rest, q.1 ∉ extra0 ++ [p.1] := by
          intro q hq hc
          rcases List.mem_append.1 hc with hc | hc
          · exact hdis' q hq hc
          · rw [List.mem_singleton] at hc
            exact hpnotin (hc ▸ List.mem_map_of_mem Prod.fst hq)
        rw [ih jobs0 (extra0 ++ [p.1]) hdis2 hnd']
        rw [List.filterMap_cons_none
            (show planJob analysis selection_result output_dir p = none from by
              unfold planJob; rw [if_neg hsk, hv]),
          List.filterMap_cons_some
            (show planSkip selection_result p = some p.1 from by
              unfold planSkip; rw [if_pos ⟨hsk, hv⟩])]
        rw [Prod.mk.injEq]
        constructor
        · rfl
        · simp [List.append_assoc]
      · next v =>
        rw [show planStep analysis selection_result output_dir
            (jobs0, selection_result.skipped_episodes ++ extra0) p =
            (jobs0 ++
              [{ episode := p.2,
                 output_path := output_dir.join p.2.video_file.name,
                 video_tracks := [v],
                 audio_tracks :=
                   resolve_audio_tracks p.2 selection_result analysis,
                 subtitle_tracks :=
                   resolve_subtitle_tracks p.2 selection_result analysis,
                 preserve_attachments := true }],
             selection_result.skipped_episodes ++ extra0) from by
          unfold planStep; rw [if_neg hmem, hv]]
        rw [ih _ extra0 hdis' hnd']
        rw [List.filterMap_cons_some
            (show planJob analysis selection_result output_dir p =
              some { episode := p.2,
                     output_path := output_dir.join p.2.video_file.name,
                     video_tracks := [v],
                     audio_tracks :=
                       resolve_audio_tracks p.2 selection_result analysis,
                     subtitle_tracks :=
                       resolve_subtitle_tracks p.2 selection_result analysis,
                     preserve_attachments := true } from by
              unfold planJob; rw [if_neg hsk, hv]),
          List.filterMap_cons_none
            (show planSkip selection_result p = none from by
              unfold planSkip; rw [if_neg (by simp [hv])])]
        rw [Prod.mk.injEq]
        constructor
        · simp [List.append_assoc]
        · rfl

theorem filterMap_sublist_map {α β : Type} (f : α → Option β) (g : α → β)
    (l : List α) (h : ∀ x ∈ l, ∀ y, f x = some y → y = g x) :
    List.Sublist (l.filterMap f) (l.map g) := by
  induction l with
  | nil => simp
  | cons x xs ih =>
    rw [List.map_cons]
    cases hf : f x
    · rw [List.filterMap_cons_none hf]
      exact (ih (fun z hz => h z (List.mem_cons_of_mem _ hz))).cons _
    · next y =>
      rw [List.filterMap_cons_some hf,
        h x (List.mem_cons_self _ _) y hf]
      exact (ih (fun z hz => h z (List.mem_cons_of_mem _ hz))).cons₂ _

/-- C4: over an analysis with distinct episode numbers (a Python dict
guarantee) and episodes numbered by their key, the merge plan consists of
exactly one job per episode, in ascending episode order, for the episodes
outside the selection skip set that own a video track; episodes outside the
skip set with no video track are appended to the plan skip list and get no
job while later episodes still do; every job carries exactly one video
track and outputs to the output directory joined with the original video
filename. -/
theorem C4_build_merge_plan (analysis : AnalysisResult)
    (selection_result : SelectionResult) (output_dir : MPath)
    (hnodup : (analysis.episodes.map Prod.fst).Nodup)
    (hnum : ∀ p ∈ analysis.episodes, p.2.number = p.1) :
    (build_merge_plan analysis selection_result output_dir).jobs =
      (List.insertionSort (fun a b => a.1 ≤ b.1)
        analysis.episodes).filterMap
        (planJob analysis selection_result output_dir)
    ∧ (build_merge_plan analysis selection_result output_dir).skipped_episodes =
      selection_result.skipped_episodes ++
        (List.insertionSort (fun a b => a.1 ≤ b.1)
          analysis.episodes).filterMap (planSkip selection_result)
    ∧ (∀ job ∈ (build_merge_plan analysis selection_result output_dir).jobs,
        job.video_tracks.length = 1 ∧
        job.output_path = output_dir.join job.episode.video_file.name)
    ∧ ((build_merge_plan analysis selection_result output_dir).jobs.map
        (fun j => j.episode.number)).Pairwise (· < ·) := by
  have hperm : List.Perm
      (List.insertionSort (fun a b => a.1 ≤ b.1) analysis.episodes)
      analysis.episodes := List.perm_insertionSort _ _
  have hndsorted : ((List.insertionSort (fun a b => a.1 ≤ b.1)
      analysis.episodes).map Prod.fst).Nodup :=
    ((hperm.map Prod.fst).nodup_iff).2 hnodup
  have hmain := plan_foldl_spec analysis selection_result output_dir
    (List.insertionSort (fun a b => a.1 ≤ b.1) analysis.episodes) [] []
    (fun p _ => List.not_mem_nil p.1) hndsorted
  simp only [List.append_nil, List.nil_append] at hmain
  have hplan : build_merge_plan analysis selection_result output_dir =
      ⟨(List.insertionSort (fun a b => a.1 ≤ b.1)
          analysis.episodes).filterMap
          (planJob analysis selection_result output_dir),
        output_dir,
        selection_result.skipped_episodes ++
          (List.insertionSort (fun a b => a.1 ≤ b.1)
            analysis.episodes).filterMap (planSkip selection_result)⟩ := by
    unfold build_merge_plan
    show (⟨(List.foldl (planStep analysis selection_result output_dir)
        ([], selection_result.skipped_episodes)
        (List.insertionSort (fun a b => a.1 ≤ b.1) analysis.episodes)).1,
      output_dir,
      (List.foldl (planStep analysis selection_result output_dir)
        ([], selection_result.skipped_episodes)
        (List.insertionSort (fun a b => a.1 ≤ b.1) analysis.episodes)).2⟩ :
      MergePlan) = _
    rw [hmain]
  refine ⟨by rw [hplan], by rw [hplan], ?_, ?_⟩
  · intro job hjob
    rw [hplan] at hjob
    obtain ⟨p, hp, hsome⟩ := List.mem_filterMap.1 hjob
    unfold planJob at hsome
    by_cases hsk : p.1 ∈ selection_result.skipped_episodes
    · rw [if_pos hsk] at hsome
      cases hsome
    · rw [if_neg hsk] at hsome
      cases hv : get_video_track p.2 <;> rw [hv] at hsome
      · cases hsome
      · cases hsome
        exact ⟨rfl, rfl⟩
  · rw [hplan]
    show ((List.insertionSort (fun a b => a.1 ≤ b.1)
        analysis.episodes).filterMap
        (planJob analysis selection_result output_dir)).map
        (fun j => j.episode.number) |>.Pairwise (· < ·)
    rw [List.map_filterMap]
    haveI : IsTotal (Nat × Episode) (fun a b => a.1 ≤ b.1) :=
      ⟨fun a b => Nat.le_total a.1 b.1⟩
    haveI : IsTrans (Nat × Episode) (fun a b => a.1 ≤ b.1) :=
      ⟨fun _ _ _ h1 h2 => Nat.le_trans h1 h2⟩
    have hsorted : (List.insertionSort (fun a b => a.1 ≤ b.1)
        analysis.episodes).Sorted (fun a b => a.1 ≤ b.1) :=
      List.sorted_insertionSort _ _
    have hkeys : ((List.insertionSort (fun a b => a.1 ≤ b.1)
        analysis.episodes).map Prod.fst).Pairwise (· < ·) := by
      have h1 : ((List.insertionSort (fun a b => a.1 ≤ b.1)
          analysis.episodes).map Prod.fst).Pairwise (· ≤ ·) :=
        List.Pairwise.map Prod.fst (fun _ _ h => h) hsorted
      have h2 : ((List.insertionSort (fun a b => a.1 ≤ b.1)
          analysis.episodes).map Prod.fst).Pairwise (· ≠ ·) :=
        hndsorted
      exact (List.Pairwise.and h1 h2).imp (fun hab => by omega)
    refine List.Pairwise.sublist ?_ hkeys
    apply filterMap_sublist_map
    intro p hp y hy
    unfold planJob at hy
    by_cases hsk : p.1 ∈ selection_result.skipped_episodes
    · rw [if_pos hsk] at hy
      cases hy
    · rw [if_neg hsk] at hy
      cases hv : get_video_track p.2 <;> rw [hv] at hy
      · cases hy
      · next v =>
        simp at hy
        rw [← hy]
        exact hnum p (hperm.subset hp)

/-- Witness for C4: an analysis with one episode lacking video (forced into
the skip list) and one with video (job emitted, output named after the
original file). -/
theorem C4_build_merge_plan_witness :
    ((build_merge_plan
        ⟨[(2, ⟨2, ⟨[], "e2.mkv"⟩,
             [⟨0, .VIDEO, "h264", "und", none, .EMBEDDED, ⟨[], "e2.mkv"⟩,
               none, false, false, none, none, none⟩], [], []⟩),
           (1, ⟨1, ⟨[], "e1.mkv"⟩, [], [], []⟩)],
          [], [], [], [], [], []⟩
        ⟨[], [], [], [], []⟩
        ⟨[], "out"⟩).jobs.map (fun j => j.episode.number)).Pairwise (· < ·) := by
  exact (C4_build_merge_plan _ _ _ (by decide) (by decide)).2.2.2

/-! ## Selection and gap resolution (claim C5) -/

theorem processMissing_abort (oracle : GapOracle) (kind selId : String)
    (sources : List (String × ExternalSource)) :
    ∀ (l : List Nat) (acc : List (Nat × String) × List Nat),
      (∃ ep ∈ l, oracle kind selId ep (alternativesFor sources selId ep) =
        .abort) →
      processMissing oracle kind selId sources l acc =
        .error "User aborted due to missing episode" := by
  intro l
  induction l with
  | nil => rintro acc ⟨ep, hep, _⟩; cases hep
  | cons ep rest ih =>
    rintro ⟨subs, skipped⟩ ⟨ep0, hep0, habort⟩
    unfold processMissing
    rcases List.mem_cons.1 hep0 with rfl | hmem
    · by_cases hemp : (alternativesFor sources selId ep0).isEmpty <;>
        simp only [hemp, ite_true, ite_false, Bool.false_eq_true] <;>
        rw [habort]
    · by_cases hemp : (alternativesFor sources selId ep).isEmpty <;>
        simp only [hemp, ite_true, ite_false, Bool.false_eq_true] <;>
        cases hdec : oracle kind selId ep (alternativesFor sources selId ep) <;>
        first
          | rfl
          | exact ih _ ⟨ep0, hmem, habort⟩

theorem processMissing_ok (oracle : GapOracle) (kind selId : String)
    (sources : List (String × ExternalSource)) :
    ∀ (l : List Nat) (acc : List (Nat × String) × List Nat),
      (∀ ep ∈ l, oracle kind selId ep (alternativesFor sources selId ep) ≠
        .abort) →
      ∃ acc2, processMissing oracle kind selId sources l acc = .ok acc2 := by
  intro l
  induction l with
  | nil => exact fun acc _ => ⟨acc, rfl⟩
  | cons ep rest ih =>
    rintro ⟨subs, skipped⟩ hno
    have hok := hno ep (List.mem_cons_self _ _)
    have hno' : ∀ e ∈ rest,
        oracle kind selId e (alternativesFor sources selId e) ≠ .abort :=
      fun e he => hno e (List.mem_cons_of_mem _ he)
    unfold processMissing
    by_cases hemp : (alternativesFor sources selId ep).isEmpty <;>
      simp only [hemp, ite_true, ite_false, Bool.false_eq_true] <;>
      cases hdec : oracle kind selId ep (alternativesFor sources selId ep) <;>
      first
        | exact absurd hdec hok
        | exact ih _ hno'

theorem processMissing_error_msg (oracle : GapOracle) (kind selId : String)
    (sources : List (String × ExternalSource)) :
    ∀ (l : List Nat) (acc : List (Nat × String) × List Nat) (e : String),
      processMissing oracle kind selId sources l acc = .error e →
      e = "User aborted due to missing episode" := by
  intro l
  induction l with
  | nil => intro acc e h; cases h
  | cons ep rest ih =>
    rintro ⟨subs, skipped⟩ e h
    unfold processMissing at h
    by_cases hemp : (alternativesFor sources selId ep).isEmpty <;>
      simp only [hemp, ite_true, ite_false, Bool.false_eq_true] at h <;>
      cases hdec : oracle kind selId ep (alternativesFor sources selId ep) <;>
      rw [hdec] at h <;>
      first
        | (cases h; rfl)
        | exact ih _ _ h

theorem gapsLoop_abort (oracle : GapOracle) (kind : String)
    (sources : List (String × ExternalSource)) (analysis : AnalysisResult) :
    ∀ (sels : List TrackSelection) (acc : List (Nat × String) × List Nat),
      (∃ sel ∈ sels, sel.is_embedded = false ∧
        ∃ source, List.lookup sel.identifier sources = some source ∧
          ∃ ep ∈ missingEpisodes analysis source,
            oracle kind sel.identifier ep
              (alternativesFor sources sel.identifier ep) = .abort) →
      gapsLoop oracle kind sources analysis sels acc =
        .error "User aborted due to missing episode" := by
  intro sels
  induction sels with
  | nil => rintro acc ⟨sel, hsel, _⟩; cases hsel
  | cons sel rest ih =>
    rintro acc ⟨sel0, hsel0, hnemb, source0, hlk0, hq⟩
    unfold gapsLoop
    rcases List.mem_cons.1 hsel0 with rfl | hmem
    · rw [if_neg (by rw [hnemb]; simp), hlk0]
      show (match processMissing oracle kind sel0.identifier sources
          (missingEpisodes analysis source0) acc with
        | Except.ok acc2 => gapsLoop oracle kind sources analysis rest acc2
        | Except.error e => Except.error e) = _
      rw [processMissing_abort oracle kind sel0.identifier sources _ acc hq]
    · by_cases hemb : sel.is_embedded
      · rw [if_pos hemb]
        exact ih acc ⟨sel0, hmem, hnemb, source0, hlk0, hq⟩
      · rw [if_neg hemb]
        cases hlk : List.lookup sel.identifier sources
        · exact ih acc ⟨sel0, hmem, hnemb, source0, hlk0, hq⟩
        · next source =>
          show (match processMissing oracle kind sel.identifier sources
              (missingEpisodes analysis source) acc with
            | Except.ok acc2 => gapsLoop oracle kind sources analysis rest acc2
            | Except.error e => Except.error e) = _
          cases hpm : processMissing oracle kind sel.identifier sources
              (missingEpisodes analysis source) acc
          · next e =>
            rw [processMissing_error_msg oracle kind sel.identifier sources
              _ acc e hpm]
          · next acc2 =>
            exact ih acc2 ⟨sel0, hmem, hnemb, source0, hlk0, hq⟩

theorem gapsLoop_error_msg (oracle : GapOracle) (kind : String)
    (sources : List (String × ExternalSource)) (analysis : AnalysisResult) :
    ∀ (sels : List TrackSelection) (acc : List (Nat × String) × List Nat)
      (e : String),
      gapsLoop oracle kind sources analysis sels acc = .error e →
      e = "User aborted due to missing episode" := by
  intro sels
  induction sels with
  | nil => intro acc e h; cases h
  | cons sel rest ih =>
    intro acc e h
    unfold gapsLoop at h
    by_cases hemb : sel.is_embedded
    · rw [if_pos hemb] at h
      exact ih acc e h
    · rw [if_neg hemb] at h
      cases hlk : List.lookup sel.identifier sources <;> rw [hlk] at h
      · exact ih acc e h
      · next source =>
        have h2 : (match processMissing oracle kind sel.identifier sources
            (missingEpisodes analysis source) acc with
          | Except.ok acc2 => gapsLoop oracle kind sources analysis rest acc2
          | Except.error e2 => Except.error e2) = Except.error e := h
        cases hpm : processMissing oracle kind sel.identifier sources
            (missingEpisodes analysis source) acc <;> rw [hpm] at h2
        · next e2 =>
          injection h2 with h3
          rw [← h3]
          exact processMissing_error_msg oracle kind sel.identifier sources
            _ acc e2 hpm
        · next acc2 => exact ih acc2 e h2

/-- C5: if the operator decision at any gap prompt that the run poses (for
audio or subtitle selections) is abort, select_tracks unwinds with the
abort error and no SelectionResult is produced. -/
theorem C5_select_tracks_abort (analysis : AnalysisResult)
    (audio_selections subtitle_selections : List TrackSelection)
    (oracle : GapOracle)
    (h : (∃ q ∈ gap_queries analysis audio_selections "audio",
            oracle "audio" q.1 q.2.1 q.2.2 = .abort) ∨
         (∃ q ∈ gap_queries analysis subtitle_selections "subtitle",
            oracle "subtitle" q.1 q.2.1 q.2.2 = .abort)) :
    select_tracks analysis audio_selections subtitle_selections oracle =
      .error "User aborted due to missing episode" := by
  have hconv : ∀ (sels : List TrackSelection) (kind : String)
      (sources : List (String × ExternalSource)),
      (if kind == "audio" then analysis.external_audio_sources
        else analysis.external_subtitle_sources) = sources →
      (∃ q ∈ gap_queries analysis sels kind, oracle kind q.1 q.2.1 q.2.2 =
        .abort) →
      (∃ sel ∈ sels, sel.is_embedded = false ∧
        ∃ source, List.lookup sel.identifier sources = some source ∧
          ∃ ep ∈ missingEpisodes analysis source,
            oracle kind sel.identifier ep
              (alternativesFor sources sel.identifier ep) = .abort) := by
    rintro sels kind sources hsrc ⟨q, hq, habort⟩
    unfold gap_queries at hq
    rw [hsrc] at hq
    obtain ⟨sel, hsel, hqsel⟩ := List.mem_flatMap.1 hq
    by_cases hemb : sel.is_embedded
    · rw [if_pos hemb] at hqsel
      cases hqsel
    · rw [if_neg hemb] at hqsel
      cases hlk : List.lookup sel.identifier sources <;> rw [hlk] at hqsel
      · cases hqsel
      · next source =>
        obtain ⟨ep, hep, hqe⟩ := List.mem_map.1 hqsel
        refine ⟨sel, hsel, by simpa using hemb, source, hlk, ep, hep, ?_⟩
        rw [← hqe] at habort
        exact habort
  unfold select_tracks handle_gaps
  rcases h with h | h
  · have := gapsLoop_abort oracle "audio" analysis.external_audio_sources
      analysis audio_selections ([], [])
      (hconv audio_selections "audio" analysis.external_audio_sources rfl h)
    rw [show (if ("audio" == "audio") = true then
        analysis.external_audio_sources
      else analysis.external_subtitle_sources) =
        analysis.external_audio_sources from rfl]
    rw [this]
  · cases hga : gapsLoop oracle "audio" analysis.external_audio_sources
        analysis audio_selections ([], [])
    · next e =>
      rw [show (if ("audio" == "audio") = true then
          analysis.external_audio_sources
        else analysis.external_subtitle_sources) =
          analysis.external_audio_sources from rfl]
      rw [hga]
      rw [gapsLoop_error_msg oracle "audio" analysis.external_audio_sources
        analysis audio_selections ([], []) e hga]
    · next accA =>
      rw [show (if ("audio" == "audio") = true then
          analysis.external_audio_sources
        else analysis.external_subtitle_sources) =
          analysis.external_audio_sources from rfl]
      rw [hga]
      have := gapsLoop_abort oracle "subtitle"
        analysis.external_subtitle_sources analysis subtitle_selections
        ([], []) (hconv subtitle_selections "subtitle"
          analysis.external_subtitle_sources rfl h)
      rw [show (if ("subtitle" == "audio") = true then
          analysis.external_audio_sources
        else analysis.external_subtitle_sources) =
          analysis.external_subtitle_sources from rfl]
      obtain ⟨subsA, skippedA⟩ := accA
      rw [this]

/-- Witness for C5: one selected external audio source missing episode 2
with no alternatives; an always-abort operator makes select_tracks fail. -/
theorem C5_select_tracks_abort_witness :
    select_tracks
        ⟨[(1, ⟨1, ⟨[], "e1.mkv"⟩, [], [], []⟩),
          (2, ⟨2, ⟨[], "e2.mkv"⟩, [], [], []⟩)],
          [], [],
          [("src", ⟨"src", .audio, ⟨[], "src"⟩, [(1, ⟨[], "a1.mka"⟩)]⟩)],
          [], [], []⟩
        [⟨"src", false, "src"⟩] [] (fun _ _ _ _ => GapChoice.abort) =
      .error "User aborted due to missing episode" := by
  exact C5_select_tracks_abort _ _ _ _
    (Or.inl ⟨("src", 2, []), by decide, rfl⟩)

/-! ## Matcher infrastructure (claims C1, C3, C9) -/

theorem skipScanF_fuel (canon cs : List Char) :
    ∀ (f1 : Nat) (f2 i : Nat), cs.length < i + f1 → cs.length < i + f2 →
      skipScanF canon cs f1 i = skipScanF canon cs f2 i := by
  intro f1
  induction f1 with
  | zero =>
    intro f2 i h1 h2
    cases f2 with
    | zero => rfl
    | succ g =>
      show [] = skipScanF canon cs (g + 1) i
      unfold skipScanF
      rw [if_neg (by omega)]
  | succ f ih =>
    intro f2 i h1 h2
    cases f2 with
    | zero =>
      show skipScanF canon cs (f + 1) i = []
      unfold skipScanF
      rw [if_neg (by omega)]
    | succ g =>
      unfold skipScanF
      by_cases hlt : i < cs.length
      · rw [if_pos hlt, if_pos hlt]
        by_cases hocc : occAt canon cs i
        · rw [if_pos hocc, if_pos hocc]
          have hs : 1 ≤ max 1 (canon.length + runLen cs (i + canon.length)) :=
            Nat.le_max_left _ _
          rw [ih g (i + max 1 (canon.length + runLen cs (i + canon.length)))
            (by omega) (by omega)]
        · rw [if_neg hocc, if_neg hocc, ih g (i + 1) (by omega) (by omega)]
      · rw [if_neg hlt, if_neg hlt]

theorem skipScan_eq (canon cs : List Char) (i : Nat) :
    skipScan canon cs i =
      if i < cs.length then
        (if occAt canon cs i then
          i :: skipScan canon cs
            (i + max 1 (canon.length + runLen cs (i + canon.length)))
        else skipScan canon cs (i + 1))
      else [] := by
  have hstep : ∀ j : Nat,
      skipScan canon cs j = skipScanF canon cs (cs.length + 1 - j) j :=
    fun _ => rfl
  by_cases hlt : i < cs.length
  · rw [if_pos hlt, hstep i,
      show cs.length + 1 - i = (cs.length - i) + 1 from by omega]
    show (if i < cs.length then
        (if occAt canon cs i then
          i :: skipScanF canon cs (cs.length - i)
            (i + max 1 (canon.length + runLen cs (i + canon.length)))
        else skipScanF canon cs (cs.length - i) (i + 1))
      else []) = _
    rw [if_pos hlt]
    have hs : 1 ≤ max 1 (canon.length + runLen cs (i + canon.length)) :=
      Nat.le_max_left _ _
    by_cases hocc : occAt canon cs i
    · rw [if_pos hocc, if_pos hocc, hstep]
      rw [skipScanF_fuel canon cs (cs.length - i)
        (cs.length + 1 -
          (i + max 1 (canon.length + runLen cs (i + canon.length))))
        (i + max 1 (canon.length + runLen cs (i + canon.length)))
        (by omega) (by omega)]
    · rw [if_neg hocc, if_neg hocc, hstep]
      rw [skipScanF_fuel canon cs (cs.length - i) (cs.length + 1 - (i + 1))
        (i + 1) (by omega) (by omega)]
  · rw [if_neg hlt, hstep i]
    rw [skipScanF_fuel canon cs (cs.length + 1 - i) 1 i (by omega) (by omega)]
    show (if i < cs.length then
        (if occAt canon cs i then
          i :: skipScanF canon cs 0
            (i + max 1 (canon.length + runLen cs (i + canon.length)))
        else skipScanF canon cs 0 (i + 1))
      else []) = _
    rw [if_neg hlt]

theorem firstSome_eq_some {α β : Type} (f : α → Option β) :
    ∀ (l : List α) (y : β), firstSome f l = some y →
      ∃ x ∈ l, f x = some y := by
  intro l
  induction l with
  | nil => intro y h; cases h
  | cons x xs ih =>
    intro y h
    unfold firstSome at h
    cases hf : f x <;> rw [hf] at h
    · obtain ⟨z, hz, hfz⟩ := ih y h
      exact ⟨z, List.mem_cons_of_mem _ hz, hfz⟩
    · cases h
      exact ⟨x, List.mem_cons_self _ _, hf⟩

theorem firstSome_eq_none {α β : Type} (f : α → Option β) :
    ∀ (l : List α), firstSome f l = none ↔ ∀ x ∈ l, f x = none := by
  intro l
  induction l with
  | nil => simp [firstSome]
  | cons x xs ih =>
    unfold firstSome
    cases hf : f x
    · simp only [List.mem_cons]
      constructor
      · intro h z hz
        rcases hz with rfl | hz
        exacts [hf, (ih.1 h) z hz]
      · intro h
        exact ih.2 (fun z hz => h z (Or.inr hz))
    · simp only [List.mem_cons]
      constructor
      · intro h; cases h
      · intro h
        rw [h x (Or.inl rfl)] at hf
        cases hf

theorem buildEpisodeMap_some_iff (m : List Char → Option Nat) :
    ∀ (files : List MPath) (acc mp : List (Nat × MPath)),
      buildEpisodeMap m files acc = some mp ↔
        ((∀ f ∈ files, (m f.name.data).isSome = true) ∧
         (files.map (fun f => (m f.name.data).getD 0)).Nodup ∧
         (∀ k ∈ files.map (fun f => (m f.name.data).getD 0),
            k ∉ acc.map Prod.fst) ∧
         mp = acc ++ files.map (fun f => ((m f.name.data).getD 0, f))) := by
  intro files
  induction files with
  | nil =>
    intro acc mp
    show some acc = some mp ↔ _
    simp only [Option.some.injEq, List.map_nil, List.nodup_nil,
      List.not_mem_nil, false_implies, implies_true, List.append_nil,
      true_and]
    exact eq_comm
  | cons f fs ih =>
    intro acc mp
    unfold buildEpisodeMap
    cases hm : m f.name.data
    · show none = some mp ↔ _
      simp only [List.map_cons, List.mem_cons]
      constructor
      · intro h; cases h
      · rintro ⟨hall, -, -, -⟩
        have := hall f (Or.inl rfl)
        rw [hm] at this
        cases this
    · next k =>
      show (if (acc.map Prod.fst).contains k then none
          else buildEpisodeMap m fs (acc ++ [(k, f)])) = some mp ↔ _
      by_cases hk : (acc.map Prod.fst).contains k
      · rw [if_pos hk]
        constructor
        · intro h; cases h
        · rintro ⟨-, -, hnot, -⟩
          refine absurd ?_ (hnot k (by simp [hm]))
          simpa using hk
      · rw [if_neg hk]
        rw [ih (acc ++ [(k, f)]) mp]
        simp only [List.map_cons, List.map_append, hm, Option.getD_some,
          Option.isSome_some, List.mem_cons, List.nodup_cons]
        constructor
        · rintro ⟨h1, h2, h3, h4⟩
          refine ⟨?_, ⟨?_, h2⟩, ?_, ?_⟩
          · intro g hg
            rcases hg with rfl | hg
            · rw [hm]; rfl
            · exact h1 g hg
          · intro hkin
            have := h3 k hkin
            simp at this
          · intro k2 hk2
            rcases hk2 with rfl | hk2
            · simpa using hk
            · intro hk2acc
              exact h3 k2 hk2 (by simp [hk2acc])
          · rw [h4]
            simp
        · rintro ⟨h1, ⟨hknotin, h2⟩, h3, h4⟩
          refine ⟨?_, h2, ?_, ?_⟩
          · intro g hg
            exact h1 g (Or.inr hg)
          · intro k2 hk2 hk2acc
            simp only [List.map_append, List.mem_append] at hk2acc
            rcases hk2acc with hk2acc | hk2acc
            · exact h3 k2 (Or.inr hk2) hk2acc
            · simp only [List.map_cons, List.map_nil, List.mem_singleton]
                at hk2acc
              exact hknotin (hk2acc ▸ hk2)
          · rw [h4]
            simp

theorem validateWith_some_iff (m : List Char → Option Nat)
    (files : List MPath) (mp : List (Nat × MPath)) :
    validateWith m files = some mp ↔
      ((∀ f ∈ files, (m f.name.data).isSome = true) ∧
       (files.map (fun f => (m f.name.data).getD 0)).Nodup ∧
       mp = files.map (fun f => ((m f.name.data).getD 0, f))) := by
  unfold validateWith
  constructor
  · intro h
    cases hb : buildEpisodeMap m files [] <;> rw [hb] at h
    · cases h
    · next mp0 =>
      have h0 : (if mp0.length = files.length then some mp0 else none) =
          some mp := h
      by_cases hlen : mp0.length = files.length
      · rw [if_pos hlen] at h0
        cases h0
        obtain ⟨h1, h2, -, h4⟩ := (buildEpisodeMap_some_iff m files [] _).1 hb
        rw [List.nil_append] at h4
        exact ⟨h1, h2, h4⟩
      · rw [if_neg hlen] at h0
        cases h0
  · rintro ⟨h1, h2, rfl⟩
    have hb : buildEpisodeMap m files [] =
        some (files.map (fun f => ((m f.name.data).getD 0, f))) :=
      (buildEpisodeMap_some_iff m files [] _).2
        ⟨h1, h2, by simp, by rw [List.nil_append]⟩
    rw [hb]
    show (if (files.map (fun f => ((m f.name.data).getD 0, f))).length =
        files.length then
        some (files.map (fun f => ((m f.name.data).getD 0, f)))
      else none) = _
    rw [if_pos (by simp)]

theorem try_prefixed_cases (tf : MPath) (rest : List MPath) :
    try_prefixed_pattern (tf :: rest) = [] ∨
    ∃ canon ∈ SPECIAL_EPISODE_PREFIXES, ∃ s,
      validateWith
        (matchPfx (tf.name.data.take s) canon
          (tf.name.data.drop
            (s + canon.length + runLen tf.name.data (s + canon.length))))
        (tf :: rest) = some (try_prefixed_pattern (tf :: rest)) := by
  have hdef : try_prefixed_pattern (tf :: rest) =
      (match firstSome (fun canon =>
          firstSome (fun s =>
              validateWith
                (matchPfx (tf.name.data.take s) canon
                  (tf.name.data.drop
                    (s + canon.length +
                      runLen tf.name.data (s + canon.length))))
                (tf :: rest))
            (skipScan canon tf.name.data 0))
          SPECIAL_EPISODE_PREFIXES with
        | some m => m
        | none => []) := rfl
  rw [hdef]
  cases hfs : firstSome (fun canon =>
      firstSome (fun s =>
          validateWith
            (matchPfx (tf.name.data.take s) canon
              (tf.name.data.drop
                (s + canon.length + runLen tf.name.data (s + canon.length))))
            (tf :: rest))
        (skipScan canon tf.name.data 0))
      SPECIAL_EPISODE_PREFIXES
  · exact Or.inl rfl
  · next mp =>
    obtain ⟨canon, hcanon, hinner⟩ := firstSome_eq_some _ _ _ hfs
    obtain ⟨s, hs, hval⟩ := firstSome_eq_some _ _ _ hinner
    exact Or.inr ⟨canon, hcanon, s, hval⟩

/-- C9: any nonempty mapping produced by extract_episode_numbers — via the
single-file rule, a digit-run candidate, or the prefixed fallback — has one
entry per input file, pairwise-distinct (naturally non-negative) episode
numbers, and values drawn from the input list. -/
theorem C9_extract_episode_numbers_invariants (files : List MPath)
    (h : extract_episode_numbers files ≠ []) :
    (extract_episode_numbers files).length = files.length ∧
    ((extract_episode_numbers files).map Prod.fst).Nodup ∧
    ∀ p ∈ extract_episode_numbers files, p.2 ∈ files := by
  match files with
  | [] => exact absurd rfl h
  | [f] =>
    refine ⟨rfl, ?_, ?_⟩
    · show ([((1 : Nat), f)].map Prod.fst).Nodup
      simp
    intro p hp
    rw [show extract_episode_numbers [f] = [(1, f)] from rfl] at hp
    rw [List.mem_singleton] at hp
    rw [hp]
    exact List.mem_singleton.2 rfl
  | f :: g :: rest =>
    have hdefE : extract_episode_numbers (f :: g :: rest) =
        (match firstSome (fun r =>
            validateWith (matchD ((f.name.data).take r.1)
              ((f.name.data).drop (r.1 + r.2))) (f :: g :: rest))
            (digitRuns f.name.data).reverse with
          | some m => m
          | none => try_prefixed_pattern (f :: g :: rest)) := rfl
    have hshape : extract_episode_numbers (f :: g :: rest) = [] ∨
        ∃ m0 : List Char → Option Nat,
          validateWith m0 (f :: g :: rest) =
            some (extract_episode_numbers (f :: g :: rest)) := by
      rw [hdefE]
      cases hfs : firstSome (fun r =>
          validateWith (matchD ((f.name.data).take r.1)
            ((f.name.data).drop (r.1 + r.2))) (f :: g :: rest))
          (digitRuns f.name.data).reverse
      · rcases try_prefixed_cases f (g :: rest) with hemp | hval
        · exact Or.inl hemp
        · obtain ⟨canon, -, s, hval⟩ := hval
          exact Or.inr ⟨_, hval⟩
      · next mp =>
        obtain ⟨r, hr, hval⟩ := firstSome_eq_some _ _ _ hfs
        exact Or.inr ⟨_, hval⟩
    rcases hshape with hemp | ⟨m0, hval⟩
    · exact absurd hemp h
    · obtain ⟨h1, h2, h3⟩ := (validateWith_some_iff _ _ _).1 hval
      refine ⟨by rw [h3]; simp, by rw [h3]; simpa using h2, ?_⟩
      intro p hp
      rw [h3] at hp
      obtain ⟨q, hq, hqe⟩ := List.mem_map.1 hp
      rw [← hqe]
      exact hq

/-- Witness for C9 at a concrete two-file list. -/
theorem C9_extract_episode_numbers_invariants_witness :
    (extract_episode_numbers
        [⟨["d"], "Show.S01E05.mkv"⟩, ⟨["d"], "Show.S01E06.mkv"⟩]).length =
      2 ∧
    ((extract_episode_numbers
        [⟨["d"], "Show.S01E05.mkv"⟩, ⟨["d"], "Show.S01E06.mkv"⟩]).map
      Prod.fst).Nodup := by
  have h := C9_extract_episode_numbers_invariants
    [⟨["d"], "Show.S01E05.mkv"⟩, ⟨["d"], "Show.S01E06.mkv"⟩] (by decide)
  exact ⟨h.1, h.2.1⟩

theorem map_snd_pairs {α β : Type} (g : α → β) (l : List α) :
    (l.map (fun x => (g x, x))).map Prod.snd = l := by
  induction l with
  | nil => rfl
  | cons x xs ih => simp [ih]

theorem map_fst_pairs {α β : Type} (g : α → β) (l : List α) :
    (l.map (fun x => (g x, x))).map Prod.fst = l.map g := by
  induction l with
  | nil => rfl
  | cons x xs ih => simp [ih]

/-- C1: with at least two files and some digit-run candidate from the first
file name validating against all of them, extract_episode_numbers returns a
mapping of exactly one entry per input file whose values are the input list
itself, whose keys are the pairwise-distinct integers captured by the
accepted candidate (digitsVal discards leading zeros), and the accepted
candidate is one of the digit-run candidates; and the duplicate-file
scenario returns the empty mapping because equal captured numbers reject
every candidate. -/
theorem C1_extract_digit_candidate (f1 f2 : MPath) (rest : List MPath)
    (hsucc : ∃ r ∈ digitRuns f1.name.data,
      (validateWith (matchD (f1.name.data.take r.1)
        (f1.name.data.drop (r.1 + r.2))) (f1 :: f2 :: rest)).isSome = true) :
    ((extract_episode_numbers (f1 :: f2 :: rest)).map Prod.snd =
        f1 :: f2 :: rest ∧
      (extract_episode_numbers (f1 :: f2 :: rest)).length =
        (f1 :: f2 :: rest).length ∧
      ((extract_episode_numbers (f1 :: f2 :: rest)).map Prod.fst).Nodup ∧
      ∃ r ∈ digitRuns f1.name.data,
        validateWith (matchD (f1.name.data.take r.1)
          (f1.name.data.drop (r.1 + r.2))) (f1 :: f2 :: rest) =
          some (extract_episode_numbers (f1 :: f2 :: rest))) ∧
    extract_episode_numbers
      [⟨["d"], "Show - 01.mkv"⟩, ⟨["d"], "Show - 01.mkv"⟩] = [] := by
  refine ⟨?_, by decide⟩
  have hdefE : extract_episode_numbers (f1 :: f2 :: rest) =
      (match firstSome (fun r =>
          validateWith (matchD ((f1.name.data).take r.1)
            ((f1.name.data).drop (r.1 + r.2))) (f1 :: f2 :: rest))
          (digitRuns f1.name.data).reverse with
        | some m => m
        | none => try_prefixed_pattern (f1 :: f2 :: rest)) := rfl
  obtain ⟨r0, hr0, hsome0⟩ := hsucc
  cases hfs : firstSome (fun r =>
      validateWith (matchD ((f1.name.data).take r.1)
        ((f1.name.data).drop (r.1 + r.2))) (f1 :: f2 :: rest))
      (digitRuns f1.name.data).reverse
  · rw [firstSome_eq_none] at hfs
    have h0 := hfs r0 (List.mem_reverse.2 hr0)
    rw [h0] at hsome0
    cases hsome0
  · next mp =>
    have hext : extract_episode_numbers (f1 :: f2 :: rest) = mp := by
      rw [hdefE, hfs]
    obtain ⟨r, hrrev, hval⟩ := firstSome_eq_some _ _ _ hfs
    obtain ⟨h1, h2, h3⟩ := (validateWith_some_iff _ _ _).1 hval
    rw [hext, h3]
    refine ⟨map_snd_pairs _ _, by simp,
      by rw [map_fst_pairs]; exact h2, ?_⟩
    refine ⟨r, List.mem_reverse.1 hrrev, ?_⟩
    rw [← h3]
    exact hval

/-- Witness for C1 at the S01E05/S01E06 scenario. -/
theorem C1_extract_digit_candidate_witness :
    (extract_episode_numbers
        [⟨["d"], "Show.S01E05.mkv"⟩, ⟨["d"], "Show.S01E06.mkv"⟩]).map
      Prod.snd = [⟨["d"], "Show.S01E05.mkv"⟩, ⟨["d"], "Show.S01E06.mkv"⟩] := by
  exact (C1_extract_digit_candidate ⟨["d"], "Show.S01E05.mkv"⟩
    ⟨["d"], "Show.S01E06.mkv"⟩ [] (by decide)).1.1

/-! ## Character classes under case folding (claim C3) -/

theorem char_isDigit_iff (c : Char) :
    c.isDigit = true ↔ 48 ≤ c.toNat ∧ c.toNat ≤ 57 := by
  show (decide (c.val ≥ 48) && decide (c.val ≤ 57)) = true ↔ _
  rw [Bool.and_eq_true, decide_eq_true_iff, decide_eq_true_iff]
  exact Iff.rfl

theorem char_isAlpha_iff (c : Char) :
    c.isAlpha = true ↔
      (65 ≤ c.toNat ∧ c.toNat ≤ 90) ∨ (97 ≤ c.toNat ∧ c.toNat ≤ 122) := by
  show (c.isUpper || c.isLower) = true ↔ _
  rw [Bool.or_eq_true]
  apply or_congr
  · show (decide (c.val ≥ 65) && decide (c.val ≤ 90)) = true ↔ _
    rw [Bool.and_eq_true, decide_eq_true_iff, decide_eq_true_iff]
    exact Iff.rfl
  · show (decide (c.val ≥ 97) && decide (c.val ≤ 122)) = true ↔ _
    rw [Bool.and_eq_true, decide_eq_true_iff, decide_eq_true_iff]
    exact Iff.rfl

theorem toLower_toNat (c : Char) :
    (Char.toLower c).toNat =
      if 65 ≤ c.toNat ∧ c.toNat ≤ 90 then c.toNat + 32 else c.toNat := by
  unfold Char.toLower
  split
  · next h =>
    rw [if_pos h]
    show (Char.ofNat (c.toNat + 32)).toNat = _
    unfold Char.ofNat
    rw [dif_pos (Or.inl (by omega))]
    rfl
  · next h => rw [if_neg h]

theorem toLower_digit {c d : Char} (h : c.toLower = d.toLower) :
    c.isDigit = d.isDigit := by
  rw [Bool.eq_iff_iff, char_isDigit_iff, char_isDigit_iff]
  have hn := congrArg Char.toNat h
  rw [toLower_toNat, toLower_toNat] at hn
  split_ifs at hn <;> omega

theorem toLower_alpha {c d : Char} (h : c.toLower = d.toLower) :
    c.isAlpha = d.isAlpha := by
  rw [Bool.eq_iff_iff, char_isAlpha_iff, char_isAlpha_iff]
  have hn := congrArg Char.toNat h
  rw [toLower_toNat, toLower_toNat] at hn
  split_ifs at hn <;> omega

theorem not_digit_and_alpha {c : Char} (hd : c.isDigit = true)
    (ha : c.isAlpha = true) : False := by
  rw [char_isDigit_iff] at hd
  rw [char_isAlpha_iff] at ha
  omega

/-! ## Case-insensitive equality of words -/

theorem map_eq_map_iff_forall2 {α β : Type} (f : α → β) :
    ∀ a b : List α, a.map f = b.map f ↔
      List.Forall₂ (fun x y => f x = f y) a b := by
  intro a
  induction a with
  | nil =>
    intro b
    cases b <;> simp
  | cons x xs ih =>
    intro b
    cases b <;> simp [ih]

theorem lowerEq_iff_forall2 {a b : List Char} :
    lowerEq a b ↔ List.Forall₂ (fun c d => c.toLower = d.toLower) a b :=
  map_eq_map_iff_forall2 Char.toLower a b

theorem lowerEq_length {a b : List Char} (h : lowerEq a b) :
    a.length = b.length := by
  have := congrArg List.length h
  simpa using this

theorem lowerEq_trans {a b c : List Char} (h1 : lowerEq a b)
    (h2 : lowerEq b c) : lowerEq a c := Eq.trans h1 h2

theorem lowerEq_symm {a b : List Char} (h : lowerEq a b) : lowerEq b a :=
  Eq.symm h

theorem lowerEq_append {a b c d : List Char} (h1 : lowerEq a b)
    (h2 : lowerEq c d) : lowerEq (a ++ c) (b ++ d) := by
  unfold lowerEq at h1 h2 ⊢
  rw [List.map_append, List.map_append, h1, h2]

theorem lowerEq_all_digit {a b : List Char} (h : lowerEq a b) :
    a.all Char.isDigit = b.all Char.isDigit := by
  rw [lowerEq_iff_forall2] at h
  induction h with
  | nil => rfl
  | cons hcd htail ih => simp only [List.all_cons, toLower_digit hcd, ih]

theorem lowerEq_all_alpha {a b : List Char} (h : lowerEq a b) :
    a.all Char.isAlpha = b.all Char.isAlpha := by
  rw [lowerEq_iff_forall2] at h
  induction h with
  | nil => rfl
  | cons hcd htail ih => simp only [List.all_cons, toLower_alpha hcd, ih]

theorem lowerEq_head {a b : List Char} (h : lowerEq a b) {c : Char}
    (hc : a.head? = some c) :
    ∃ d, b.head? = some d ∧ c.toLower = d.toLower := by
  rw [lowerEq_iff_forall2] at h
  cases h with
  | nil => cases hc
  | cons hcd htail =>
    cases hc
    exact ⟨_, rfl, hcd⟩

theorem lowerEq_reverse {a b : List Char} (h : lowerEq a b) :
    lowerEq a.reverse b.reverse := by
  unfold lowerEq at h ⊢
  rw [List.map_reverse, List.map_reverse, h]

theorem lowerEq_getLast {a b : List Char} (h : lowerEq a b) {c : Char}
    (hc : a.getLast? = some c) :
    ∃ d, b.getLast? = some d ∧ c.toLower = d.toLower := by
  have hr := lowerEq_reverse h
  rw [← List.head?_reverse] at hc
  obtain ⟨d, hd, hcd⟩ := lowerEq_head hr hc
  rw [List.head?_reverse] at hd
  exact ⟨d, hd, hcd⟩

/-! ## Decomposition views of the two anchored matchers -/

theorem matchD_eq_some_iff {pre suf name : List Char} {k : Nat} :
    matchD pre suf name = some k ↔
      ∃ p m s : List Char, name = p ++ m ++ s ∧ p.length = pre.length ∧
        s.length = suf.length ∧ lowerEq p pre ∧ lowerEq s suf ∧
        m ≠ [] ∧ m.all Char.isDigit = true ∧ k = digitsVal m := by
  unfold matchD
  constructor
  · intro h
    split_ifs at h with hc
    · obtain ⟨hlen, hpe, hse, hdig⟩ := hc
      cases h
      have hd : (name.drop pre.length).drop
          (name.length - pre.length - suf.length) =
          name.drop (name.length - suf.length) := by
        rw [List.drop_drop]
        congr 1
        omega
      refine ⟨name.take pre.length,
        (name.drop pre.length).take (name.length - pre.length - suf.length),
        name.drop (name.length - suf.length), ?_, ?_, ?_, hpe, hse, ?_, hdig,
        rfl⟩
      · rw [List.append_assoc, ← hd, List.take_append_drop,
          List.take_append_drop]
      · rw [List.length_take]
        omega
      · rw [List.length_drop]
        omega
      · intro hnil
        have := congrArg List.length hnil
        rw [List.length_take, List.length_drop] at this
        simp only [List.length_nil] at this
        omega
  · rintro ⟨p, m, s, rfl, hp, hs, hpe, hse, hm, hmd, rfl⟩
    have hmlen : 0 < m.length := List.length_pos.2 hm
    have hlen : pre.length + suf.length < (p ++ m ++ s).length := by
      simp only [List.length_append]
      omega
    have e1 : (p ++ m ++ s).take pre.length = p := by
      rw [List.append_assoc]
      exact List.take_left' hp
    have e2 : (p ++ m ++ s).drop ((p ++ m ++ s).length - suf.length) = s := by
      rw [show (p ++ m ++ s).length - suf.length = (p ++ m).length from by
        simp only [List.length_append]; omega]
      exact List.drop_left _ _
    have e3 : ((p ++ m ++ s).drop pre.length).take
        ((p ++ m ++ s).length - pre.length - suf.length) = m := by
      rw [show (p ++ m ++ s).length - pre.length - suf.length = m.length
          from by simp only [List.length_append]; omega]
      rw [List.append_assoc, List.drop_left' hp]
      exact List.take_left _ _
    rw [e1, e2, e3, if_pos ⟨hlen, hpe, hse, hmd⟩]

theorem matchPfx_eq_some_iff {before canon after name : List Char} {k : Nat} :
    matchPfx before canon after name = some k ↔
      ∃ b P m a : List Char, name = b ++ P ++ m ++ a ∧
        b.length = before.length ∧ P.length = canon.length ∧
        a.length = after.length ∧ lowerEq b before ∧ lowerEq P canon ∧
        m.all Char.isDigit = true ∧ lowerEq a after ∧
        k = (if m.isEmpty then 1 else digitsVal m) := by
  unfold matchPfx
  constructor
  · intro h
    split at h
    case isFalse => cases h
    case isTrue hc =>
      obtain ⟨hlen, hbe, hPe, hdig, hae⟩ := hc
      cases h
      have hd2 : ((name.drop before.length).drop canon.length) =
          name.drop (before.length + canon.length) := by
        rw [List.drop_drop]
      have hd3 : (name.drop (before.length + canon.length)).drop
          (name.length - before.length - canon.length - after.length) =
          name.drop (name.length - after.length) := by
        rw [List.drop_drop]
        congr 1
        omega
      refine ⟨name.take before.length,
        (name.drop before.length).take canon.length,
        (name.drop (before.length + canon.length)).take
          (name.length - before.length - canon.length - after.length),
        name.drop (name.length - after.length), ?_, ?_, ?_, ?_, hbe, hPe,
        hdig, hae, ?_⟩
      · rw [List.append_assoc, List.append_assoc, ← hd3, ← hd2,
          List.take_append_drop, List.take_append_drop,
          List.take_append_drop]
      · rw [List.length_take]
        omega
      · rw [List.length_take, List.length_drop]
        omega
      · rw [List.length_drop]
        omega
      · rfl
  · rintro ⟨b, P, m, a, rfl, hb, hP, ha, hbe, hPe, hmd, hae, rfl⟩
    have hlen : before.length + canon.length + after.length ≤
        (b ++ P ++ m ++ a).length := by
      simp only [List.length_append]
      omega
    have e1 : (b ++ P ++ m ++ a).take before.length = b := by
      rw [List.append_assoc, List.append_assoc]
      exact List.take_left' hb
    have e2 : ((b ++ P ++ m ++ a).drop before.length).take canon.length
        = P := by
      rw [List.append_assoc, List.append_assoc, List.drop_left' hb,
        ← List.append_assoc, List.append_assoc]
      exact List.take_left' hP
    have e3 : ((b ++ P ++ m ++ a).drop (before.length + canon.length)).take
        ((b ++ P ++ m ++ a).length - before.length - canon.length -
          after.length) = m := by
      rw [show (b ++ P ++ m ++ a).length - before.length - canon.length -
          after.length = m.length from by
            simp only [List.length_append]; omega]
      rw [show (b ++ P ++ m ++ a) = (b ++ P) ++ (m ++ a) from by
        simp [List.append_assoc]]
      rw [List.drop_left' (by rw [List.length_append, hb, hP])]
      exact List.take_left _ _
    have e4 : (b ++ P ++ m ++ a).drop
        ((b ++ P ++ m ++ a).length - after.length) = a := by
      rw [show (b ++ P ++ m ++ a).length - after.length =
        (b ++ P ++ m).length from by simp only [List.length_append]; omega]
      rw [show (b ++ P ++ m ++ a) = (b ++ P ++ m) ++ a from by
        simp [List.append_assoc]]
      exact List.drop_left _ _
    rw [e1, e2, e3, e4, if_pos ⟨hlen, hbe, hPe, hmd, hae⟩]

theorem matchD_congr {pre pre' suf suf' : List Char}
    (h1 : lowerEq pre pre') (h2 : lowerEq suf suf') (name : List Char) :
    matchD pre suf name = matchD pre' suf' name := by
  cases hm : matchD pre' suf' name
  · cases hm2 : matchD pre suf name
    · rfl
    · next k =>
      obtain ⟨p, m, s, hsplit, hp, hs, hpe, hse, hne, hmd, hk⟩ :=
        matchD_eq_some_iff.1 hm2
      have : matchD pre' suf' name = some k :=
        matchD_eq_some_iff.2 ⟨p, m, s, hsplit,
          hp.trans (lowerEq_length h1), hs.trans (lowerEq_length h2),
          lowerEq_trans hpe h1, lowerEq_trans hse h2, hne, hmd, hk⟩
      rw [hm] at this
      cases this
  · next k =>
    obtain ⟨p, m, s, hsplit, hp, hs, hpe, hse, hne, hmd, hk⟩ :=
      matchD_eq_some_iff.1 hm
    exact matchD_eq_some_iff.2 ⟨p, m, s, hsplit,
      hp.trans (lowerEq_length h1).symm, hs.trans (lowerEq_length h2).symm,
      lowerEq_trans hpe (lowerEq_symm h1), lowerEq_trans hse (lowerEq_symm h2),
      hne, hmd, hk⟩

theorem matchPfx_congr {b b' a a' : List Char} (canon : List Char)
    (h1 : lowerEq b b') (h2 : lowerEq a a') (name : List Char) :
    matchPfx b canon a name = matchPfx b' canon a' name := by
  cases hm : matchPfx b' canon a' name
  · cases hm2 : matchPfx b canon a name
    · rfl
    · next k =>
      obtain ⟨x, P, m, y, hsplit, hx, hP, hy, hxe, hPe, hmd, hye, hk⟩ :=
        matchPfx_eq_some_iff.1 hm2
      have : matchPfx b' canon a' name = some k :=
        matchPfx_eq_some_iff.2 ⟨x, P, m, y, hsplit,
          hx.trans (lowerEq_length h1), hP, hy.trans (lowerEq_length h2),
          lowerEq_trans hxe h1, hPe, hmd, lowerEq_trans hye h2, hk⟩
      rw [hm] at this
      cases this
  · next k =>
    obtain ⟨x, P, m, y, hsplit, hx, hP, hy, hxe, hPe, hmd, hye, hk⟩ :=
      matchPfx_eq_some_iff.1 hm
    exact matchPfx_eq_some_iff.2 ⟨x, P, m, y, hsplit,
      hx.trans (lowerEq_length h1).symm, hP,
      hy.trans (lowerEq_length h2).symm,
      lowerEq_trans hxe (lowerEq_symm h1), hPe, hmd,
      lowerEq_trans hye (lowerEq_symm h2), hk⟩

/-! ## Digit runs as decompositions -/

theorem get?_eq_head_drop (cs : List Char) (i : Nat) :
    cs.get? i = (cs.drop i).head? := by
  rw [List.get?_eq_getElem?, List.head?_drop]

theorem mem_runStarts {cs : List Char} {s : Nat} :
    s ∈ runStarts cs ↔ s < cs.length ∧ digitAt cs s = true ∧
      (s = 0 ∨ digitAt cs (s - 1) = false) := by
  unfold runStarts
  constructor
  · intro hmem
    rw [List.mem_filter] at hmem
    obtain ⟨h1, h2⟩ := hmem
    rw [List.mem_range] at h1
    rw [Bool.and_eq_true, Bool.or_eq_true, decide_eq_true_iff,
      Bool.not_eq_true'] at h2
    exact ⟨h1, h2.1, h2.2⟩
  · rintro ⟨h1, h2, h3⟩
    rw [List.mem_filter, List.mem_range]
    refine ⟨h1, ?_⟩
    rw [Bool.and_eq_true, Bool.or_eq_true, decide_eq_true_iff,
      Bool.not_eq_true']
    exact ⟨h2, h3⟩

theorem mem_digitRuns {cs : List Char} {s l : Nat} :
    (s, l) ∈ digitRuns cs ↔ s ∈ runStarts cs ∧ l = runLen cs s := by
  unfold digitRuns
  rw [List.mem_map]
  constructor
  · rintro ⟨s2, hs2, heq⟩
    rw [Prod.mk.injEq] at heq
    obtain ⟨rfl, rfl⟩ := heq
    exact ⟨hs2, rfl⟩
  · rintro ⟨hs, rfl⟩
    exact ⟨s, hs, rfl⟩

theorem takeWhile_eq_take {p : Char → Bool} :
    ∀ l : List Char, l.takeWhile p = l.take (l.takeWhile p).length := by
  intro l
  induction l with
  | nil => rfl
  | cons x xs ih =>
    rw [List.takeWhile_cons]
    by_cases hx : p x
    · rw [if_pos hx]
      rw [List.length_cons, List.take_succ_cons, ← ih]
    · rw [if_neg hx]
      rfl

theorem takeWhile_all_append {p : Char → Bool} {m r : List Char}
    (hm : m.all p = true) (hr : ∀ c, r.head? = some c → p c = false) :
    (m ++ r).takeWhile p = m := by
  induction m with
  | nil =>
    cases r with
    | nil => rfl
    | cons c cr =>
      rw [List.nil_append, List.takeWhile_cons, if_neg (by
        rw [hr c rfl]
        simp)]
  | cons x xs ih =>
    rw [List.all_cons, Bool.and_eq_true] at hm
    rw [List.cons_append, List.takeWhile_cons, if_pos hm.1, ih hm.2]

theorem dropWhile_eq_drop {p : Char → Bool} :
    ∀ l : List Char, l.dropWhile p = l.drop (l.takeWhile p).length := by
  intro l
  induction l with
  | nil => rfl
  | cons x xs ih =>
    rw [List.dropWhile_cons, List.takeWhile_cons]
    by_cases hx : p x
    · rw [if_pos hx, if_pos hx, List.length_cons, List.drop_succ_cons, ih]
    · rw [if_neg hx, if_neg hx]
      rfl

theorem dropWhile_head_false {p : Char → Bool} :
    ∀ (l : List Char) (c : Char), (l.dropWhile p).head? = some c →
      p c = false := by
  intro l
  induction l with
  | nil => intro c h; cases h
  | cons x xs ih =>
    intro c h
    rw [List.dropWhile_cons] at h
    by_cases hx : p x
    · rw [if_pos hx] at h
      exact ih c h
    · rw [if_neg hx] at h
      cases h
      exact Bool.eq_false_iff.2 hx

theorem digitRuns_decomp {cs : List Char} {s l : Nat}
    (h : (s, l) ∈ digitRuns cs) :
    ∃ p m r : List Char, cs = p ++ m ++ r ∧ p.length = s ∧ m.length = l ∧
      m ≠ [] ∧ m.all Char.isDigit = true ∧
      (∀ c, p.getLast? = some c → c.isDigit = false) ∧
      (∀ c, r.head? = some c → c.isDigit = false) ∧
      p = cs.take s ∧ r = cs.drop (s + l) := by
  obtain ⟨hst, hl⟩ := mem_digitRuns.1 h
  obtain ⟨hlt, hdig, hpred⟩ := mem_runStarts.1 hst
  refine ⟨cs.take s, (cs.drop s).takeWhile Char.isDigit,
    (cs.drop s).dropWhile Char.isDigit, ?_, ?_, ?_, ?_, ?_, ?_, ?_, rfl, ?_⟩
  · rw [List.append_assoc, List.takeWhile_append_dropWhile,
      List.take_append_drop]
  · rw [List.length_take]
    omega
  · rw [hl]
    rfl
  · intro hnil
    unfold digitAt at hdig
    rw [get?_eq_head_drop] at hdig
    cases hdr : cs.drop s with
    | nil =>
      rw [hdr] at hdig
      cases hdig
    | cons c cr =>
      rw [hdr] at hdig hnil
      simp only [List.head?_cons, Option.some.injEq] at hdig
      rw [List.takeWhile_cons] at hnil
      rw [if_pos hdig] at hnil
      cases hnil
  · rw [List.all_eq_true]
    intro c hc
    exact List.mem_takeWhile_imp hc
  · intro c hc
    rcases Nat.eq_zero_or_pos s with rfl | hs
    · rw [List.take_zero] at hc
      cases hc
    · rw [List.getLast?_eq_get? _, List.get?_take (by
        rw [List.length_take]
        omega)] at hc
      rcases hpred with rfl | hpred
      · omega
      · unfold digitAt at hpred
        rw [show (cs.take s).length - 1 = s - 1 from by
          rw [List.length_take]; omega] at hc
        rw [hc] at hpred
        exact hpred
  · exact dropWhile_head_false _
  · rw [dropWhile_eq_drop, List.drop_drop]
    congr 1
    rw [hl]
    unfold runLen
    omega

theorem run_mem_digitRuns {cs p m r : List Char}
    (hcs : cs = p ++ m ++ r) (hm : m ≠ []) (hmd : m.all Char.isDigit = true)
    (hp : ∀ c, p.getLast? = some c → c.isDigit = false)
    (hr : ∀ c, r.head? = some c → c.isDigit = false) :
    (p.length, m.length) ∈ digitRuns cs ∧ cs.take p.length = p ∧
      cs.drop (p.length + m.length) = r := by
  have hmlen : 0 < m.length := List.length_pos.2 hm
  have hdrop : cs.drop p.length = m ++ r := by
    rw [hcs, List.append_assoc]
    exact List.drop_left _ _
  have htake : cs.take p.length = p := by
    rw [hcs, List.append_assoc]
    exact List.take_left _ _
  have hrl : runLen cs p.length = m.length := by
    unfold runLen
    rw [hdrop, takeWhile_all_append hmd hr]
  have hdigat : digitAt cs p.length = true := by
    unfold digitAt
    rw [get?_eq_head_drop, hdrop]
    cases m with
    | nil => exact absurd rfl hm
    | cons c cm =>
      rw [List.cons_append, List.head?_cons]
      rw [List.all_cons, Bool.and_eq_true] at hmd
      exact hmd.1
  refine ⟨mem_digitRuns.2 ⟨mem_runStarts.2 ⟨?_, hdigat, ?_⟩, hrl.symm⟩,
    htake, ?_⟩
  · rw [hcs]
    simp only [List.length_append]
    omega
  · rcases Nat.eq_zero_or_pos p.length with hz | hpos
    · exact Or.inl hz
    · refine Or.inr ?_
      unfold digitAt
      rw [hcs]
      have hppred : (p ++ m ++ r).get? (p.length - 1) = p.get? (p.length - 1) := by
        rw [List.append_assoc]
        exact List.get?_append (by omega)
      rw [hppred, ← List.getLast?_eq_get?]
      cases hgl : p.getLast? with
      | none => rfl
      | some c => exact hp c hgl
  · rw [hcs, show p.length + m.length = (p ++ m).length from by
      rw [List.length_append]]
    exact List.drop_left _ _

theorem digitRuns_keys_pairwise (cs : List Char) :
    ((digitRuns cs).map Prod.fst).Pairwise (· < ·) := by
  unfold digitRuns
  rw [List.map_map]
  have : (Prod.fst ∘ fun s => ((s : Nat), runLen cs s)) = id := rfl
  rw [this, List.map_id]
  exact (List.pairwise_lt_range _).filter _

/-! ## Generic machinery: firstSome over related and sorted lists -/

theorem firstSome_rel {β β' γ : Type} (R : β → β' → Prop)
    (f : γ → Option β) (g : γ → Option β') :
    ∀ l : List γ, (∀ x ∈ l, optRel R (f x) (g x)) →
      optRel R (firstSome f l) (firstSome g l) := by
  intro l
  induction l with
  | nil => intro _; trivial
  | cons x xs ih =>
    intro h
    have hx := h x (List.mem_cons_self _ _)
    have hdef1 : firstSome f (x :: xs) =
        (match f x with | some y => some y | none => firstSome f xs) := rfl
    have hdef2 : firstSome g (x :: xs) =
        (match g x with | some y => some y | none => firstSome g xs) := rfl
    rw [hdef1, hdef2]
    cases hf : f x <;> cases hg : g x <;> rw [hf, hg] at hx
    · exact ih (fun z hz => h z (List.mem_cons_of_mem _ hz))
    · exact hx.elim
    · exact hx.elim
    · exact hx

theorem firstSome_pairwise {β γ : Type} (R : γ → γ → Prop)
    (hasym : ∀ x y, R x y → R y x → False) (f : γ → Option β) :
    ∀ l : List γ, l.Pairwise R → ∀ y,
      (firstSome f l = some y ↔
        ∃ x ∈ l, f x = some y ∧ ∀ z ∈ l, R z x → f z = none) := by
  intro l
  induction l with
  | nil =>
    intro _ y
    constructor
    · intro h; cases h
    · rintro ⟨x, hx, -⟩; cases hx
  | cons a l ih =>
    intro hpw y
    rw [List.pairwise_cons] at hpw
    obtain ⟨ha, hpl⟩ := hpw
    have hdef : firstSome f (a :: l) =
        (match f a with | some y => some y | none => firstSome f l) := rfl
    rw [hdef]
    cases hfa : f a
    · rw [ih hpl y]
      constructor
      · rintro ⟨x, hx, hfx, hmax⟩
        refine ⟨x, List.mem_cons_of_mem _ hx, hfx, ?_⟩
        intro z hz hzx
        rcases List.mem_cons.1 hz with rfl | hz'
        · exact hfa
        · exact hmax z hz' hzx
      · rintro ⟨x, hx, hfx, hmax⟩
        rcases List.mem_cons.1 hx with rfl | hx'
        · rw [hfa] at hfx; cases hfx
        · exact ⟨x, hx', hfx,
            fun z hz hzx => hmax z (List.mem_cons_of_mem _ hz) hzx⟩
    · next y0 =>
      constructor
      · intro h
        injection h with h
        subst h
        refine ⟨a, List.mem_cons_self _ _, hfa, ?_⟩
        intro z hz hza
        rcases List.mem_cons.1 hz with rfl | hz'
        · exact absurd hza (fun hc => hasym z z hc hc)
        · exact absurd (ha z hz') (fun hc => hasym z a hza hc)
      · rintro ⟨x, hx, hfx, hmax⟩
        rcases List.mem_cons.1 hx with rfl | hx'
        · rw [hfa] at hfx
          exact hfx
        · rw [hmax a (List.mem_cons_self _ _) (ha x hx')] at hfa
          cases hfa

theorem digitRuns_rev_pairwise (cs : List Char) :
    ((digitRuns cs).reverse).Pairwise (fun a b => b.1 < a.1) := by
  rw [List.pairwise_reverse]
  have h := digitRuns_keys_pairwise cs
  rw [List.pairwise_map] at h
  exact h

theorem validateWith_ext {P Q : List Char → Option Nat}
    (h : ∀ n, P n = Q n) (files : List MPath) :
    validateWith P files = validateWith Q files := by
  have : P = Q := funext h
  rw [this]

theorem validateWith_perm_some {P : List Char → Option Nat}
    {files files' : List MPath} {mp : List (Nat × MPath)}
    (h : validateWith P files = some mp) (hp : files.Perm files') :
    ∃ mp', validateWith P files' = some mp' ∧ mp.Perm mp' := by
  obtain ⟨h1, h2, rfl⟩ := (validateWith_some_iff P files mp).1 h
  refine ⟨files'.map (fun f => ((P f.name.data).getD 0, f)), ?_, ?_⟩
  · exact (validateWith_some_iff P files' _).2
      ⟨fun f hf => h1 f (hp.mem_iff.2 hf),
        ((hp.map (fun f => (P f.name.data).getD 0)).nodup_iff).1 h2, rfl⟩
  · exact hp.map _

theorem validateWith_mem_isSome {P : List Char → Option Nat}
    {files : List MPath} {mp : List (Nat × MPath)}
    (h : validateWith P files = some mp) {f : MPath} (hf : f ∈ files) :
    (P f.name.data).isSome = true :=
  ((validateWith_some_iff P files mp).1 h).1 f hf

/-! ## Transfer of a successful digit-run candidate to a permuted list -/

theorem lowerEq_get? {a b : List Char} (h : lowerEq a b) :
    ∀ (i : Nat) {c : Char}, a.get? i = some c →
      ∃ d, b.get? i = some d ∧ c.toLower = d.toLower := by
  rw [lowerEq_iff_forall2] at h
  induction h with
  | nil => intro i c hc; cases hc
  | cons hcd htail ih =>
    intro i c hc
    cases i with
    | zero =>
      cases hc
      exact ⟨_, rfl, hcd⟩
    | succ j =>
      exact ih j hc

theorem run_transfer {A B : List Char} {files files' : List MPath}
    (hp : files.Perm files') {fB : MPath} (hfB : fB ∈ files)
    (hBname : fB.name.data = B) {s l : Nat} (hrun : (s, l) ∈ digitRuns A)
    {mp : List (Nat × MPath)}
    (hval : validateWith (matchD (A.take s) (A.drop (s + l))) files
      = some mp) :
    ∃ l' mp', (s, l') ∈ digitRuns B ∧
      validateWith (matchD (B.take s) (B.drop (s + l'))) files' = some mp' ∧
      mp.Perm mp' := by
  obtain ⟨pA, mA, rA, hAsplit, hpAlen, hmAlen, hmAne, hmAdig, hpAlast,
    hrAhead, hpAtake, hrAdrop⟩ := digitRuns_decomp hrun
  have hBsome := validateWith_mem_isSome hval hfB
  rw [hBname] at hBsome
  obtain ⟨k, hk⟩ := Option.isSome_iff_exists.1 hBsome
  obtain ⟨p, m, sfx, hBsplit, hplen, hsfxlen, hpe, hsfxe, hmne, hmdig, -⟩ :=
    matchD_eq_some_iff.1 hk
  have hAtakelen : (A.take s).length = s := by rw [← hpAtake, hpAlen]
  have hplen2 : p.length = s := by rw [hplen, hAtakelen]
  have hpe2 : lowerEq p pA := by rw [hpAtake]; exact hpe
  have hsfxe2 : lowerEq sfx rA := by rw [hrAdrop]; exact hsfxe
  have hplast : ∀ c, p.getLast? = some c → c.isDigit = false := by
    intro c hc
    obtain ⟨d, hd, hcd⟩ := lowerEq_getLast hpe2 hc
    rw [toLower_digit hcd]
    exact hpAlast d hd
  have hsfxhead : ∀ c, sfx.head? = some c → c.isDigit = false := by
    intro c hc
    obtain ⟨d, hd, hcd⟩ := lowerEq_head hsfxe2 hc
    rw [toLower_digit hcd]
    exact hrAhead d hd
  obtain ⟨hrunB, hBtake, hBdrop⟩ :=
    run_mem_digitRuns hBsplit hmne hmdig hplast hsfxhead
  rw [hplen2] at hrunB hBtake hBdrop
  have h1 : lowerEq (B.take s) (A.take s) := by rw [hBtake]; exact hpe
  have h2 : lowerEq (B.drop (s + m.length)) (A.drop (s + l)) := by
    rw [hBdrop]; exact hsfxe
  have hcong : ∀ n, matchD (B.take s) (B.drop (s + m.length)) n =
      matchD (A.take s) (A.drop (s + l)) n :=
    fun n => matchD_congr h1 h2 n
  have hvfiles : validateWith (matchD (B.take s) (B.drop (s + m.length)))
      files = some mp := by
    rw [validateWith_ext hcong]
    exact hval
  obtain ⟨mp', hmp', hperm⟩ := validateWith_perm_some hvfiles hp
  exact ⟨m.length, mp', hrunB, hmp', hperm⟩

theorem digit_phase_rel {A B : List Char} {files files' : List MPath}
    (hp : files.Perm files')
    {fA fB : MPath} (hfA : fA ∈ files') (hAname : fA.name.data = A)
    (hfB : fB ∈ files) (hBname : fB.name.data = B) :
    optRel List.Perm
      (firstSome (fun r =>
          validateWith (matchD (A.take r.1) (A.drop (r.1 + r.2))) files)
        (digitRuns A).reverse)
      (firstSome (fun r =>
          validateWith (matchD (B.take r.1) (B.drop (r.1 + r.2))) files')
        (digitRuns B).reverse) := by
  have hasym : ∀ x y : Nat × Nat, y.1 < x.1 → x.1 < y.1 → False := by
    intro x y h1 h2
    omega
  have hchA := firstSome_pairwise (fun a b => b.1 < a.1) hasym
    (fun r => validateWith (matchD (A.take r.1) (A.drop (r.1 + r.2))) files)
    (digitRuns A).reverse (digitRuns_rev_pairwise A)
  have hchB := firstSome_pairwise (fun a b => b.1 < a.1) hasym
    (fun r => validateWith (matchD (B.take r.1) (B.drop (r.1 + r.2))) files')
    (digitRuns B).reverse (digitRuns_rev_pairwise B)
  cases hfsA : firstSome (fun r =>
      validateWith (matchD (A.take r.1) (A.drop (r.1 + r.2))) files)
      (digitRuns A).reverse with
  | none =>
    cases hfsB : firstSome (fun r =>
        validateWith (matchD (B.take r.1) (B.drop (r.1 + r.2))) files')
        (digitRuns B).reverse with
    | none => trivial
    | some mpB =>
      obtain ⟨rB, hrBmem, hrBval, -⟩ := (hchB mpB).1 hfsB
      rw [List.mem_reverse] at hrBmem
      obtain ⟨sB, lB⟩ := rB
      have hrBval2 : validateWith
          (matchD (B.take sB) (B.drop (sB + lB))) files' = some mpB := hrBval
      obtain ⟨l2, mp2, hrunA, hvalA, -⟩ :=
        run_transfer hp.symm hfA hAname hrBmem hrBval2
      have hall := (firstSome_eq_none _ _).1 hfsA (sB, l2)
        (List.mem_reverse.2 hrunA)
      have hall2 : validateWith
          (matchD (A.take sB) (A.drop (sB + l2))) files = none := hall
      rw [hvalA] at hall2
      cases hall2
  | some mpA =>
    cases hfsB : firstSome (fun r =>
        validateWith (matchD (B.take r.1) (B.drop (r.1 + r.2))) files')
        (digitRuns B).reverse with
    | none =>
      obtain ⟨rA, hrAmem, hrAval, -⟩ := (hchA mpA).1 hfsA
      rw [List.mem_reverse] at hrAmem
      obtain ⟨sA, lA⟩ := rA
      have hrAval2 : validateWith
          (matchD (A.take sA) (A.drop (sA + lA))) files = some mpA := hrAval
      obtain ⟨l2, mp2, hrunB, hvalB, -⟩ :=
        run_transfer hp hfB hBname hrAmem hrAval2
      have hall := (firstSome_eq_none _ _).1 hfsB (sA, l2)
        (List.mem_reverse.2 hrunB)
      have hall2 : validateWith
          (matchD (B.take sA) (B.drop (sA + l2))) files' = none := hall
      rw [hvalB] at hall2
      cases hall2
    | some mpB =>
      obtain ⟨rA, hrAmem, hrAval, hmaxA⟩ := (hchA mpA).1 hfsA
      obtain ⟨rB, hrBmem, hrBval, hmaxB⟩ := (hchB mpB).1 hfsB
      rw [List.mem_reverse] at hrAmem hrBmem
      obtain ⟨sA, lA⟩ := rA
      obtain ⟨sB, lB⟩ := rB
      have hrAval2 : validateWith
          (matchD (A.take sA) (A.drop (sA + lA))) files = some mpA := hrAval
      have hrBval2 : validateWith
          (matchD (B.take sB) (B.drop (sB + lB))) files' = some mpB := hrBval
      obtain ⟨lB2, mpB2, hrunB2, hvalB2, hpermAB⟩ :=
        run_transfer hp hfB hBname hrAmem hrAval2
      obtain ⟨lA2, mpA2, hrunA2, hvalA2, hpermBA⟩ :=
        run_transfer hp.symm hfA hAname hrBmem hrBval2
      have hkey : sA = sB := by
        by_contra hne
        rcases Nat.lt_or_ge sA sB with hlt | hge
        · have hz := hmaxA (sB, lA2) (List.mem_reverse.2 hrunA2) hlt
          have hz2 : validateWith
              (matchD (A.take sB) (A.drop (sB + lA2))) files = none := hz
          rw [hvalA2] at hz2
          cases hz2
        · have hlt2 : sB < sA := by omega
          have hz := hmaxB (sA, lB2) (List.mem_reverse.2 hrunB2) hlt2
          have hz2 : validateWith
              (matchD (B.take sA) (B.drop (sA + lB2))) files' = none := hz
          rw [hvalB2] at hz2
          cases hz2
      subst hkey
      have h1 := mem_digitRuns.1 hrunB2
      have h2 := mem_digitRuns.1 hrBmem
      have hll : lB2 = lB := by rw [h1.2, h2.2]
      rw [hll] at hvalB2
      rw [hrBval2] at hvalB2
      injection hvalB2 with he
      rw [← he] at hpermAB
      exact hpermAB
  
/-! ## Occurrence scanning: characterisation of skipScan -/

theorem occAt_iff {canon cs : List Char} {s : Nat} :
    occAt canon cs s = true ↔
      s + canon.length ≤ cs.length ∧
      lowerEq ((cs.drop s).take canon.length) canon ∧
      (s = 0 ∨ alphaAt cs (s - 1) = false) ∧
      alnumAt cs (s + canon.length + runLen cs (s + canon.length)) = false := by
  unfold occAt
  rw [Bool.and_eq_true, Bool.and_eq_true, Bool.and_eq_true, Bool.or_eq_true,
    decide_eq_true_iff, decide_eq_true_iff, decide_eq_true_iff,
    Bool.not_eq_true', Bool.not_eq_true']
  tauto

theorem occAt_alpha_range {canon cs : List Char} {s : Nat}
    (h : occAt canon cs s = true) (halpha : canon.all Char.isAlpha = true)
    {j : Nat} (hj : s ≤ j) (hj2 : j < s + canon.length) :
    alphaAt cs j = true := by
  obtain ⟨hlen, hle, -, -⟩ := occAt_iff.1 h
  have hreg : ((cs.drop s).take canon.length).get? (j - s) = cs.get? j := by
    rw [List.get?_take (by omega), List.get?_drop]
    congr 1
    omega
  cases hcj : cs.get? j with
  | none =>
    rw [List.get?_eq_none] at hcj
    omega
  | some c =>
    rw [hcj] at hreg
    obtain ⟨d, hd, hcd⟩ := lowerEq_get? hle (j - s) hreg
    have hdalpha : d.isAlpha = true := by
      rw [List.all_eq_true] at halpha
      exact halpha d (List.get?_mem hd)
    unfold alphaAt
    rw [hcj]
    show c.isAlpha = true
    rw [toLower_alpha hcd]
    exact hdalpha

theorem runLen_digit {cs : List Char} {p j : Nat} (hj : p ≤ j)
    (hj2 : j < p + runLen cs p) : digitAt cs j = true := by
  have hlt : j - p < ((cs.drop p).takeWhile Char.isDigit).length := by
    unfold runLen at hj2
    omega
  cases hcg : ((cs.drop p).takeWhile Char.isDigit).get? (j - p) with
  | none =>
    rw [List.get?_eq_none] at hcg
    omega
  | some c =>
    have hcdig : c.isDigit = true :=
      List.mem_takeWhile_imp (List.get?_mem hcg)
    have heq : ((cs.drop p).takeWhile Char.isDigit).get? (j - p)
        = cs.get? j := by
      conv_lhs => rw [takeWhile_eq_take]
      rw [List.get?_take hlt, List.get?_drop]
      congr 1
      omega
    rw [heq] at hcg
    unfold digitAt
    rw [hcg]
    show c.isDigit = true
    exact hcdig

theorem occAt_not_overlap {canon cs : List Char} (hne : canon ≠ [])
    (halpha : canon.all Char.isAlpha = true) {s s' : Nat}
    (h : occAt canon cs s = true) (h' : occAt canon cs s' = true)
    (hlt : s < s') :
    s + canon.length + runLen cs (s + canon.length) ≤ s' := by
  by_contra hcon
  push_neg at hcon
  have hclen : 0 < canon.length := List.length_pos.2 hne
  rcases Nat.lt_or_ge s' (s + canon.length) with hcase | hcase
  · have halposa : alphaAt cs (s' - 1) = true :=
      occAt_alpha_range h halpha (by omega) (by omega)
    obtain ⟨-, -, hlb, -⟩ := occAt_iff.1 h'
    rcases hlb with rfl | hlb
    · omega
    · rw [halposa] at hlb
      cases hlb
  · have hdig : digitAt cs s' = true := runLen_digit hcase (by omega)
    have halp : alphaAt cs s' = true :=
      occAt_alpha_range h' halpha (le_refl s') (by omega)
    cases hcs : cs.get? s' with
    | none =>
      rw [List.get?_eq_none] at hcs
      obtain ⟨hl2, -, -, -⟩ := occAt_iff.1 h'
      omega
    | some c =>
      unfold digitAt at hdig
      rw [hcs] at hdig
      unfold alphaAt at halp
      rw [hcs] at halp
      have hd2 : c.isDigit = true := hdig
      have ha2 : c.isAlpha = true := halp
      exact not_digit_and_alpha hd2 ha2

theorem mem_skipScan_aux {canon cs : List Char} (hne : canon ≠ [])
    (halpha : canon.all Char.isAlpha = true) :
    ∀ (n i : Nat), cs.length ≤ i + n →
      ∀ s, s ∈ skipScan canon cs i ↔ i ≤ s ∧ occAt canon cs s = true := by
  have hclen : 0 < canon.length := List.length_pos.2 hne
  have hocclt : ∀ s, occAt canon cs s = true → s < cs.length := by
    intro s hs
    obtain ⟨hl, -, -, -⟩ := occAt_iff.1 hs
    omega
  intro n
  induction n with
  | zero =>
    intro i hle s
    rw [skipScan_eq, if_neg (by omega)]
    constructor
    · intro h
      exact absurd h (List.not_mem_nil s)
    · rintro ⟨h1, h2⟩
      have := hocclt s h2
      omega
  | succ n ih =>
    intro i hle s
    rw [skipScan_eq]
    by_cases hlt : i < cs.length
    · rw [if_pos hlt]
      by_cases hocc : occAt canon cs i = true
      · rw [if_pos hocc]
        have hmax : max 1 (canon.length + runLen cs (i + canon.length)) =
            canon.length + runLen cs (i + canon.length) :=
          Nat.max_eq_right (by omega)
        rw [hmax, List.mem_cons, ih _ (by omega) s]
        constructor
        · rintro (rfl | ⟨hges, hoccs⟩)
          · exact ⟨le_refl s, hocc⟩
          · exact ⟨by omega, hoccs⟩
        · rintro ⟨hges, hoccs⟩
          rcases Nat.eq_or_lt_of_le hges with rfl | hlt2
          · exact Or.inl rfl
          · refine Or.inr ⟨?_, hoccs⟩
            have := occAt_not_overlap hne halpha hocc hoccs hlt2
            omega
      · rw [if_neg hocc]
        rw [ih (i + 1) (by omega) s]
        constructor
        · rintro ⟨h1, h2⟩
          exact ⟨by omega, h2⟩
        · rintro ⟨h1, h2⟩
          refine ⟨?_, h2⟩
          rcases Nat.eq_or_lt_of_le h1 with rfl | hlt2
          · rw [h2] at hocc
            exact absurd rfl hocc
          · omega
    · rw [if_neg hlt]
      constructor
      · intro h
        exact absurd h (List.not_mem_nil s)
      · rintro ⟨h1, h2⟩
        have := hocclt s h2
        omega

theorem mem_skipScan {canon cs : List Char} (hne : canon ≠ [])
    (halpha : canon.all Char.isAlpha = true) (s : Nat) :
    s ∈ skipScan canon cs 0 ↔ occAt canon cs s = true := by
  rw [mem_skipScan_aux hne halpha cs.length 0 (by omega) s]
  exact ⟨fun h => h.2, fun h => ⟨Nat.zero_le s, h⟩⟩

theorem skipScan_pairwise {canon cs : List Char} (hne : canon ≠ [])
    (halpha : canon.all Char.isAlpha = true) :
    ∀ (n i : Nat), cs.length ≤ i + n →
      (skipScan canon cs i).Pairwise (· < ·) := by
  have hclen : 0 < canon.length := List.length_pos.2 hne
  intro n
  induction n with
  | zero =>
    intro i hle
    rw [skipScan_eq, if_neg (by omega)]
    exact List.Pairwise.nil
  | succ n ih =>
    intro i hle
    rw [skipScan_eq]
    by_cases hlt : i < cs.length
    · rw [if_pos hlt]
      by_cases hocc : occAt canon cs i = true
      · rw [if_pos hocc]
        have hm : 1 ≤ max 1 (canon.length + runLen cs (i + canon.length)) :=
          Nat.le_max_left _ _
        rw [List.pairwise_cons]
        constructor
        · intro s hs
          rw [mem_skipScan_aux hne halpha n _ (by omega) s] at hs
          omega
        · exact ih _ (by omega)
      · rw [if_neg hocc]
        exact ih _ (by omega)
    · rw [if_neg hlt]
      exact List.Pairwise.nil

theorem skipScan_sorted {canon cs : List Char} (hne : canon ≠ [])
    (halpha : canon.all Char.isAlpha = true) :
    (skipScan canon cs 0).Pairwise (· < ·) :=
  skipScan_pairwise hne halpha cs.length 0 (by omega)

theorem tokens_nonempty_alpha :
    ∀ t ∈ SPECIAL_EPISODE_PREFIXES, t ≠ [] ∧ t.all Char.isAlpha = true := by
  decide

/-! ## Transfer of a successful prefixed-token candidate -/

theorem occ_transfer {canon A B : List Char} (hne : canon ≠ [])
    (halpha : canon.all Char.isAlpha = true) {files files' : List MPath}
    (hp : files.Perm files') {fB : MPath} (hfB : fB ∈ files)
    (hBname : fB.name.data = B) {s : Nat} (hocc : occAt canon A s = true)
    {mp : List (Nat × MPath)}
    (hval : validateWith (matchPfx (A.take s) canon
        (A.drop (s + canon.length + runLen A (s + canon.length)))) files
      = some mp) :
    occAt canon B s = true ∧
    ∃ mp', validateWith (matchPfx (B.take s) canon
        (B.drop (s + canon.length + runLen B (s + canon.length)))) files'
      = some mp' ∧ mp.Perm mp' := by
  obtain ⟨hA1, hA2, hA3, hA4⟩ := occAt_iff.1 hocc
  have hBsome := validateWith_mem_isSome hval hfB
  rw [hBname] at hBsome
  obtain ⟨k, hk⟩ := Option.isSome_iff_exists.1 hBsome
  obtain ⟨b, P, m, a, hBsplit, hblen, hPlen, halen, hbe, hPe, hmd, hae, -⟩ :=
    matchPfx_eq_some_iff.1 hk
  have htakeslen : (A.take s).length = s := by
    rw [List.length_take]
    omega
  have hblen2 : b.length = s := by rw [hblen, htakeslen]
  have hBsplit2 : B = b ++ (P ++ (m ++ a)) := by
    rw [hBsplit, List.append_assoc, List.append_assoc]
  have hBtake : B.take s = b := by
    rw [hBsplit2, ← hblen2]
    exact List.take_left _ _
  have hBdropS : B.drop s = P ++ (m ++ a) := by
    rw [hBsplit2, ← hblen2]
    exact List.drop_left _ _
  have hBtakeP : (B.drop s).take canon.length = P := by
    rw [hBdropS, ← hPlen]
    exact List.take_left _ _
  have hBdropSL : B.drop (s + canon.length) = m ++ a := by
    have h1 : (B.drop s).drop canon.length = m ++ a := by
      rw [hBdropS, ← hPlen]
      exact List.drop_left _ _
    rw [List.drop_drop] at h1
    exact h1
  have haheadnd : ∀ c, a.head? = some c → c.isDigit = false := by
    intro c hc
    obtain ⟨d, hd, hcd⟩ := lowerEq_head hae hc
    rw [← get?_eq_head_drop] at hd
    have h4 := hA4
    unfold alnumAt at h4
    rw [hd] at h4
    have h4b : (d.isAlpha || d.isDigit) = false := h4
    rw [Bool.or_eq_false_iff] at h4b
    rw [toLower_digit hcd]
    exact h4b.2
  have hrunB : runLen B (s + canon.length) = m.length := by
    unfold runLen
    rw [hBdropSL, takeWhile_all_append hmd haheadnd]
  have hBdropEnd : B.drop (s + canon.length + m.length) = a := by
    have h1 : (B.drop (s + canon.length)).drop m.length = a := by
      rw [hBdropSL]
      exact List.drop_left _ _
    rw [List.drop_drop] at h1
    exact h1
  have hBlen : s + canon.length ≤ B.length := by
    have hl := congrArg List.length hBsplit
    simp only [List.length_append] at hl
    omega
  have hoccB : occAt canon B s = true := by
    rw [occAt_iff]
    refine ⟨hBlen, ?_, ?_, ?_⟩
    · rw [hBtakeP]
      exact hPe
    · by_cases hs0 : s = 0
      · exact Or.inl hs0
      · refine Or.inr ?_
        rcases hA3 with h0 | hA3'
        · exact absurd h0 hs0
        · have hbne : b ≠ [] := by
            intro hbnil
            rw [hbnil] at hblen2
            simp only [List.length_nil] at hblen2
            omega
          cases hgl : b.getLast? with
          | none =>
            rw [List.getLast?_eq_none_iff] at hgl
            exact absurd hgl hbne
          | some c =>
            obtain ⟨d, hd, hcd⟩ := lowerEq_getLast hbe hgl
            have hd2 : A.get? (s - 1) = some d := by
              rw [List.getLast?_eq_get?, htakeslen] at hd
              rw [List.get?_take (show s - 1 < s from by omega)] at hd
              exact hd
            have hda : d.isAlpha = false := by
              have h3 := hA3'
              unfold alphaAt at h3
              rw [hd2] at h3
              exact h3
            have hbg : B.get? (s - 1) = some c := by
              rw [hBsplit2,
                List.get?_append (show s - 1 < b.length from by omega)]
              rw [List.getLast?_eq_get?, hblen2] at hgl
              exact hgl
            unfold alphaAt
            rw [hbg]
            show c.isAlpha = false
            rw [toLower_alpha hcd]
            exact hda
    · rw [hrunB]
      cases hah : a.head? with
      | none =>
        have hbg : B.get? (s + canon.length + m.length) = none := by
          rw [get?_eq_head_drop, hBdropEnd]
          exact hah
        unfold alnumAt
        rw [hbg]
      | some c =>
        obtain ⟨d, hd, hcd⟩ := lowerEq_head hae hah
        rw [← get?_eq_head_drop] at hd
        have h4 := hA4
        unfold alnumAt at h4
        rw [hd] at h4
        have h4b : (d.isAlpha || d.isDigit) = false := h4
        have hbg : B.get? (s + canon.length + m.length) = some c := by
          rw [get?_eq_head_drop, hBdropEnd]
          exact hah
        unfold alnumAt
        rw [hbg]
        show (c.isAlpha || c.isDigit) = false
        rw [toLower_alpha hcd, toLower_digit hcd]
        exact h4b
  refine ⟨hoccB, ?_⟩
  have h1 : lowerEq (B.take s) (A.take s) := by
    rw [hBtake]
    exact hbe
  have h2 : lowerEq (B.drop (s + canon.length + runLen B (s + canon.length)))
      (A.drop (s + canon.length + runLen A (s + canon.length))) := by
    rw [hrunB, hBdropEnd]
    exact hae
  have hcong : ∀ n, matchPfx (B.take s) canon
      (B.drop (s + canon.length + runLen B (s + canon.length))) n =
      matchPfx (A.take s) canon
      (A.drop (s + canon.length + runLen A (s + canon.length))) n :=
    fun n => matchPfx_congr canon h1 h2 n
  have hvfiles : validateWith (matchPfx (B.take s) canon
      (B.drop (s + canon.length + runLen B (s + canon.length)))) files
      = some mp := by
    rw [validateWith_ext hcong]
    exact hval
  exact validateWith_perm_some hvfiles hp

theorem token_phase_rel {canon A B : List Char} (hne : canon ≠ [])
    (halpha : canon.all Char.isAlpha = true) {files files' : List MPath}
    (hp : files.Perm files')
    {fA fB : MPath} (hfA : fA ∈ files') (hAname : fA.name.data = A)
    (hfB : fB ∈ files) (hBname : fB.name.data = B) :
    optRel List.Perm
      (firstSome (fun s =>
          validateWith (matchPfx (A.take s) canon
            (A.drop (s + canon.length + runLen A (s + canon.length)))) files)
        (skipScan canon A 0))
      (firstSome (fun s =>
          validateWith (matchPfx (B.take s) canon
            (B.drop (s + canon.length + runLen B (s + canon.length)))) files')
        (skipScan canon B 0)) := by
  have hasym : ∀ x y : Nat, x < y → y < x → False := by
    intro x y h1 h2
    omega
  have hchA := firstSome_pairwise (fun a b => a < b) hasym
    (fun s => validateWith (matchPfx (A.take s) canon
      (A.drop (s + canon.length + runLen A (s + canon.length)))) files)
    (skipScan canon A 0) (skipScan_sorted hne halpha)
  have hchB := firstSome_pairwise (fun a b => a < b) hasym
    (fun s => validateWith (matchPfx (B.take s) canon
      (B.drop (s + canon.length + runLen B (s + canon.length)))) files')
    (skipScan canon B 0) (skipScan_sorted hne halpha)
  cases hfsA : firstSome (fun s =>
      validateWith (matchPfx (A.take s) canon
        (A.drop (s + canon.length + runLen A (s + canon.length)))) files)
      (skipScan canon A 0) with
  | none =>
    cases hfsB : firstSome (fun s =>
        validateWith (matchPfx (B.take s) canon
          (B.drop (s + canon.length + runLen B (s + canon.length)))) files')
        (skipScan canon B 0) with
    | none => trivial
    | some mpB =>
      obtain ⟨sB, hsBmem, hsBval, -⟩ := (hchB mpB).1 hfsB
      rw [mem_skipScan hne halpha] at hsBmem
      have hsBval2 : validateWith (matchPfx (B.take sB) canon
          (B.drop (sB + canon.length + runLen B (sB + canon.length)))) files'
          = some mpB := hsBval
      obtain ⟨hoccA, mp2, hvalA, -⟩ :=
        occ_transfer hne halpha hp.symm hfA hAname hsBmem hsBval2
      have hall := (firstSome_eq_none _ _).1 hfsA sB
        ((mem_skipScan hne halpha sB).2 hoccA)
      have hall2 : validateWith (matchPfx (A.take sB) canon
          (A.drop (sB + canon.length + runLen A (sB + canon.length)))) files
          = none := hall
      rw [hvalA] at hall2
      cases hall2
  | some mpA =>
    cases hfsB : firstSome (fun s =>
        validateWith (matchPfx (B.take s) canon
          (B.drop (s + canon.length + runLen B (s + canon.length)))) files')
        (skipScan canon B 0) with
    | none =>
      obtain ⟨sA, hsAmem, hsAval, -⟩ := (hchA mpA).1 hfsA
      rw [mem_skipScan hne halpha] at hsAmem
      have hsAval2 : validateWith (matchPfx (A.take sA) canon
          (A.drop (sA + canon.length + runLen A (sA + canon.length)))) files
          = some mpA := hsAval
      obtain ⟨hoccB, mp2, hvalB, -⟩ :=
        occ_transfer hne halpha hp hfB hBname hsAmem hsAval2
      have hall := (firstSome_eq_none _ _).1 hfsB sA
        ((mem_skipScan hne halpha sA).2 hoccB)
      have hall2 : validateWith (matchPfx (B.take sA) canon
          (B.drop (sA + canon.length + runLen B (sA + canon.length)))) files'
          = none := hall
      rw [hvalB] at hall2
      cases hall2
    | some mpB =>
      obtain ⟨sA, hsAmem, hsAval, hmaxA⟩ := (hchA mpA).1 hfsA
      obtain ⟨sB, hsBmem, hsBval, hmaxB⟩ := (hchB mpB).1 hfsB
      rw [mem_skipScan hne halpha] at hsAmem hsBmem
      have hsAval2 : validateWith (matchPfx (A.take sA) canon
          (A.drop (sA + canon.length + runLen A (sA + canon.length)))) files
          = some mpA := hsAval
      have hsBval2 : validateWith (matchPfx (B.take sB) canon
          (B.drop (sB + canon.length + runLen B (sB + canon.length)))) files'
          = some mpB := hsBval
      obtain ⟨hoccB2, mpB2, hvalB2, hpermAB⟩ :=
        occ_transfer hne halpha hp hfB hBname hsAmem hsAval2
      obtain ⟨hoccA2, mpA2, hvalA2, hpermBA⟩ :=
        occ_transfer hne halpha hp.symm hfA hAname hsBmem hsBval2
      have hkey : sA = sB := by
        by_contra hne2
        rcases Nat.lt_or_ge sA sB with hlt | hge
        · have hz := hmaxB sA ((mem_skipScan hne halpha sA).2 hoccB2) hlt
          have hz2 : validateWith (matchPfx (B.take sA) canon
              (B.drop (sA + canon.length + runLen B (sA + canon.length))))
              files' = none := hz
          rw [hvalB2] at hz2
          cases hz2
        · have hlt2 : sB < sA := by omega
          have hz := hmaxA sB ((mem_skipScan hne halpha sB).2 hoccA2) hlt2
          have hz2 : validateWith (matchPfx (A.take sB) canon
              (A.drop (sB + canon.length + runLen A (sB + canon.length))))
              files = none := hz
          rw [hvalA2] at hz2
          cases hz2
      subst hkey
      rw [hsBval2] at hvalB2
      injection hvalB2 with he
      rw [← he] at hpermAB
      exact hpermAB

theorem try_prefixed_rel {f f' : MPath} {t t' : List MPath}
    (hp : (f :: t).Perm (f' :: t')) :
    (try_prefixed_pattern (f :: t)).Perm (try_prefixed_pattern (f' :: t')) := by
  have hfA : f ∈ (f' :: t') := hp.mem_iff.1 (List.mem_cons_self _ _)
  have hfB : f' ∈ (f :: t) := hp.mem_iff.2 (List.mem_cons_self _ _)
  have hrel := firstSome_rel List.Perm
    (fun canon => firstSome (fun s =>
        validateWith (matchPfx (f.name.data.take s) canon
          (f.name.data.drop
            (s + canon.length + runLen f.name.data (s + canon.length))))
        (f :: t))
      (skipScan canon f.name.data 0))
    (fun canon => firstSome (fun s =>
        validateWith (matchPfx (f'.name.data.take s) canon
          (f'.name.data.drop
            (s + canon.length + runLen f'.name.data (s + canon.length))))
        (f' :: t'))
      (skipScan canon f'.name.data 0))
    SPECIAL_EPISODE_PREFIXES
    (fun canon hcanon => by
      obtain ⟨hne, halpha⟩ := tokens_nonempty_alpha canon hcanon
      exact token_phase_rel hne halpha hp hfA rfl hfB rfl)
  have hdefA : try_prefixed_pattern (f :: t) =
      (match firstSome (fun canon =>
          firstSome (fun s =>
              validateWith
                (matchPfx (f.name.data.take s) canon
                  (f.name.data.drop
                    (s + canon.length +
                      runLen f.name.data (s + canon.length))))
                (f :: t))
            (skipScan canon f.name.data 0))
          SPECIAL_EPISODE_PREFIXES with
        | some m => m
        | none => []) := rfl
  have hdefB : try_prefixed_pattern (f' :: t') =
      (match firstSome (fun canon =>
          firstSome (fun s =>
              validateWith
                (matchPfx (f'.name.data.take s) canon
                  (f'.name.data.drop
                    (s + canon.length +
                      runLen f'.name.data (s + canon.length))))
                (f' :: t'))
            (skipScan canon f'.name.data 0))
          SPECIAL_EPISODE_PREFIXES with
        | some m => m
        | none => []) := rfl
  rw [hdefA, hdefB]
  cases hA : firstSome (fun canon =>
      firstSome (fun s =>
          validateWith
            (matchPfx (f.name.data.take s) canon
              (f.name.data.drop
                (s + canon.length + runLen f.name.data (s + canon.length))))
            (f :: t))
        (skipScan canon f.name.data 0))
      SPECIAL_EPISODE_PREFIXES with
  | none =>
    cases hB : firstSome (fun canon =>
        firstSome (fun s =>
            validateWith
              (matchPfx (f'.name.data.take s) canon
                (f'.name.data.drop
                  (s + canon.length +
                    runLen f'.name.data (s + canon.length))))
              (f' :: t'))
          (skipScan canon f'.name.data 0))
        SPECIAL_EPISODE_PREFIXES with
    | none => exact List.Perm.refl _
    | some mpB =>
      rw [hA, hB] at hrel
      exact hrel.elim
  | some mpA =>
    cases hB : firstSome (fun canon =>
        firstSome (fun s =>
            validateWith
              (matchPfx (f'.name.data.take s) canon
                (f'.name.data.drop
                  (s + canon.length +
                    runLen f'.name.data (s + canon.length))))
              (f' :: t'))
          (skipScan canon f'.name.data 0))
        SPECIAL_EPISODE_PREFIXES with
    | none =>
      rw [hA, hB] at hrel
      exact hrel.elim
    | some mpB =>
      rw [hA, hB] at hrel
      exact hrel

/-- C3: extract_episode_numbers is order-independent.  For any permutation
of the input file list the returned episode-number-to-file mapping is the
same Python dict: the produced entry lists are permutations of one another
(dict equality ignores insertion order; keys are unique by validation).
Both the reverse digit-run scan and the prefixed-token fallback pick
corresponding candidates for the two first-file templates, because any
successful candidate must match every file — in particular the other
template — and candidate patterns transfer between case-insensitively
equal literals at the same start index. -/
theorem C3_extract_order_independent (files files' : List MPath)
    (hp : files.Perm files') :
    (extract_episode_numbers files).Perm (extract_episode_numbers files') := by
  cases files with
  | nil =>
    cases files' with
    | nil => exact List.Perm.refl _
    | cons g t =>
      have hl := hp.length_eq
      simp only [List.length_nil, List.length_cons] at hl
      omega
  | cons f t =>
    cases t with
    | nil =>
      have h1 : files' = [f] := List.perm_singleton.1 hp.symm
      rw [h1]
    | cons g t2 =>
      cases files' with
      | nil =>
        have hl := hp.length_eq
        simp only [List.length_nil, List.length_cons] at hl
        omega
      | cons f' t' =>
        cases t' with
        | nil =>
          have hl := hp.length_eq
          simp only [List.length_nil, List.length_cons] at hl
          omega
        | cons g' t2' =>
          have hfA : f ∈ (f' :: g' :: t2') :=
            hp.mem_iff.1 (List.mem_cons_self _ _)
          have hfB : f' ∈ (f :: g :: t2) :=
            hp.mem_iff.2 (List.mem_cons_self _ _)
          have hdig := digit_phase_rel hp hfA rfl hfB rfl
          have hdefA : extract_episode_numbers (f :: g :: t2) =
              (match firstSome (fun r =>
                  validateWith (matchD (f.name.data.take r.1)
                    (f.name.data.drop (r.1 + r.2))) (f :: g :: t2))
                  (digitRuns f.name.data).reverse with
                | some m => m
                | none => try_prefixed_pattern (f :: g :: t2)) := rfl
          have hdefB : extract_episode_numbers (f' :: g' :: t2') =
              (match firstSome (fun r =>
                  validateWith (matchD (f'.name.data.take r.1)
                    (f'.name.data.drop (r.1 + r.2))) (f' :: g' :: t2'))
                  (digitRuns f'.name.data).reverse with
                | some m => m
                | none => try_prefixed_pattern (f' :: g' :: t2')) := rfl
          rw [hdefA, hdefB]
          cases hA : firstSome (fun r =>
              validateWith (matchD (f.name.data.take r.1)
                (f.name.data.drop (r.1 + r.2))) (f :: g :: t2))
              (digitRuns f.name.data).reverse with
          | none =>
            cases hB : firstSome (fun r =>
                validateWith (matchD (f'.name.data.take r.1)
                  (f'.name.data.drop (r.1 + r.2))) (f' :: g' :: t2'))
                (digitRuns f'.name.data).reverse with
            | none => exact try_prefixed_rel hp
            | some mpB =>
              rw [hA, hB] at hdig
              exact hdig.elim
          | some mpA =>
            cases hB : firstSome (fun r =>
                validateWith (matchD (f'.name.data.take r.1)
                  (f'.name.data.drop (r.1 + r.2))) (f' :: g' :: t2'))
                (digitRuns f'.name.data).reverse with
            | none =>
              rw [hA, hB] at hdig
              exact hdig.elim
            | some mpB =>
              rw [hA, hB] at hdig
              exact hdig

theorem C3_extract_order_independent_witness :
    ([⟨["w"], "Foo 03.mkv"⟩, ⟨["w"], "Foo 07.mkv"⟩] : List MPath).Perm
      [⟨["w"], "Foo 07.mkv"⟩, ⟨["w"], "Foo 03.mkv"⟩] ∧
    (extract_episode_numbers
        [⟨["w"], "Foo 03.mkv"⟩, ⟨["w"], "Foo 07.mkv"⟩]).Perm
      (extract_episode_numbers
        [⟨["w"], "Foo 07.mkv"⟩, ⟨["w"], "Foo 03.mkv"⟩]) :=
  ⟨by decide, C3_extract_order_independent _ _ (by decide)⟩

end AnimeMux
